import Mathlib

/-!
Verification of the Rhiz trust-graph engines: a shallow embedding of the
Conviction Calculator (`app/services/conviction.py`), the Trust Engine
(`app/services/trust_engine.py`) and the PathFinder
(`app/services/pathfinder.py`), with theorems checking the specification's
claims against the embedded code.

Modelling conventions:
- Python floats become exact reals (`ℝ`); database numeric columns
  (strength 0-100, consensus 0-1) become rationals so that graph filters
  stay decidable; entity DIDs and AT URIs become naturals.
- `datetime` values become "age in whole days relative to now" (`ℕ`),
  which is exactly the quantity the code derives via `(now - t).days`.
- A missing SQL value (`NULL last_interaction`, unknown attester) becomes
  `Option.none`.
- Python `int(x)` truncates toward zero; this is `pyInt` below.
-/

namespace Rhiz

noncomputable section

/-! ## Conviction Calculator (`app/services/conviction.py`) -/

/-- Attestation type. The string field `attestation_type`; `other` stands
for any string outside the four known values (the code logs a warning and
uses base weight 0 for it). -/
inductive AttType
  | verify
  | dispute
  | strengthen
  | weaken
  | other
deriving DecidableEq

/-- An attestation, with `created_at` replaced by its age in days. -/
structure Attestation where
  attester_did : ℕ
  attestation_type : AttType
  confidence : ℕ
  age_days : ℕ

/-- Base weight by attestation type: `VERIFY_WEIGHT = 1.0`,
`DISPUTE_WEIGHT = -1.5`, `STRENGTHEN_WEIGHT = 0.5`, `WEAKEN_WEIGHT = -0.5`,
and 0.0 for an unknown type. -/
def baseWeight : AttType → ℝ
  | .verify => 1
  | .dispute => -(3/2)
  | .strengthen => 1/2
  | .weaken => -(1/2)
  | .other => 0

/-- Attester reputation normalized to 0-1: `attester.trust_score / 100.0`
when the entities table has the attester, `0.5` otherwise. The
reputation lookup `rep` models the `SELECT trust_score FROM entities`
query. -/
def attesterReputation (rep : ℕ → Option ℕ) (did : ℕ) : ℝ :=
  match rep did with
  | some t => (t : ℝ) / 100
  | none => 1/2

/-- Reputation multiplier:
`MIN_REPUTATION_MULTIPLIER + reputation * (MAX - MIN)` = `0.5 + rep * 1.5`. -/
def reputationMultiplier (rep : ℕ → Option ℕ) (did : ℕ) : ℝ :=
  1/2 + attesterReputation rep did * (2 - 1/2)

/-- Temporal decay `0.5 ** (age_days / DECAY_HALF_LIFE_DAYS)` with the
180-day half-life; real exponentiation. -/
def decayFactor (age_days : ℕ) : ℝ :=
  (1/2 : ℝ) ^ ((age_days : ℝ) / 180)

/-- `final_weight = base_weight * reputation_multiplier * decay_factor *
confidence_factor` for one attestation. -/
def finalWeight (rep : ℕ → Option ℕ) (a : Attestation) : ℝ :=
  baseWeight a.attestation_type * reputationMultiplier rep a.attester_did *
    decayFactor a.age_days * ((a.confidence : ℝ) / 100)

/-- The accumulated `weighted_sum` over the attestation loop. -/
def weightedSum (rep : ℕ → Option ℕ) (atts : List Attestation) : ℝ :=
  (atts.map (finalWeight rep)).sum

/-- The accumulated `total_weight` (sum of absolute final weights). -/
def totalWeight (rep : ℕ → Option ℕ) (atts : List Attestation) : ℝ :=
  (atts.map (fun a => |finalWeight rep a|)).sum

/-- Python `int()` applied to a real: truncation toward zero. -/
def pyInt (x : ℝ) : ℤ :=
  if 0 ≤ x then ⌊x⌋ else ⌈x⌉

/-- Count of attestations of a given type (the `counts` dict). -/
def countType (atts : List Attestation) (t : AttType) : ℕ :=
  (atts.filter (fun a => a.attestation_type = t)).length

/-- Trend classification result. -/
inductive Trend
  | increasing
  | stable
  | decreasing
deriving DecidableEq

/-- Net positive attestation count: `+1` per `verify`, `-1` otherwise. -/
def trendNet (atts : List Attestation) : ℤ :=
  (atts.map (fun a => if a.attestation_type = AttType.verify then (1 : ℤ) else -1)).sum

/-- `_calculate_trend`: compares the trailing 30 days against the previous
30-day window; fewer than 3 recent attestations forces `stable`. -/
def calculateTrend (atts : List Attestation) : Trend :=
  let recent := atts.filter (fun a => a.age_days ≤ 30)
  let previous := atts.filter (fun a => 30 < a.age_days ∧ a.age_days ≤ 60)
  let recentNet := trendNet recent
  let previousNet := trendNet previous
  if recent.length < 3 then Trend.stable
  else if (previousNet : ℝ) * (3/2) < (recentNet : ℝ) then Trend.increasing
  else if (recentNet : ℝ) < (previousNet : ℝ) * (1/2) then Trend.decreasing
  else Trend.stable

/-- Reputations of the attesters found in the entities table
(`attester_reputations`). -/
def knownReputations (rep : ℕ → Option ℕ) (atts : List Attestation) : List ℕ :=
  atts.filterMap (fun a => rep a.attester_did)

/-- `max(attester_reputations) if attester_reputations else 0`. -/
def topAttesterReputation (rep : ℕ → Option ℕ) (atts : List Attestation) : ℕ :=
  (knownReputations rep atts).foldr max 0

/-- The dictionary returned by `calculate_conviction`. -/
structure ConvictionResult where
  score : ℤ
  attestation_count : ℕ
  verify_count : ℕ
  dispute_count : ℕ
  strengthen_count : ℕ
  weaken_count : ℕ
  trend : Trend
  top_attester_reputation : ℕ

/-- `_empty_conviction`: the result for a record with no attestations. -/
def emptyConviction : ConvictionResult :=
  { score := 0
    attestation_count := 0
    verify_count := 0
    dispute_count := 0
    strengthen_count := 0
    weaken_count := 0
    trend := Trend.stable
    top_attester_reputation := 0 }

/-- `ConvictionCalculator.calculate_conviction`. The score is
`int(50 + weighted_sum * 25)` clamped to `[0, 100]`, with the neutral 50
when `total_weight == 0`, and the empty result for an empty attestation
list. -/
def calculateConviction (rep : ℕ → Option ℕ)
    (atts : List Attestation) : ConvictionResult :=
  match atts with
  | [] => emptyConviction
  | _ =>
    let ws := weightedSum rep atts
    let tw := totalWeight rep atts
    let score : ℤ :=
      if tw = 0 then 50
      else max 0 (min 100 (pyInt (50 + ws * 25)))
    { score := score
      attestation_count := atts.length
      verify_count := countType atts .verify
      dispute_count := countType atts .dispute
      strengthen_count := countType atts .strengthen
      weaken_count := countType atts .weaken
      trend := calculateTrend atts
      top_attester_reputation := topAttesterReputation rep atts }

/-- The claim's final-score formula, transcribed from the spec sentence
`score = clamp(0, 100, round(50 + weightedSum × 25))` with round-to-nearest
rounding, to be compared against the code's truncation. -/
def specRoundScore (rep : ℕ → Option ℕ) (atts : List Attestation) : ℤ :=
  max 0 (min 100 (round (50 + weightedSum rep atts * 25)))

/-! ## Trust Engine (`app/services/trust_engine.py`) -/

/-- A relationship row. `strength` is the stored 0-100 value,
`consensus_score` the stored 0-1 value; `last_interaction` is the number
of days since the last interaction (`none` for SQL NULL). -/
structure Relationship where
  rid : ℕ
  entity_a_id : ℕ
  entity_b_id : ℕ
  strength : ℚ
  consensus_score : ℚ
  verifier_count : ℕ
  rel_type : ℕ
  last_interaction : Option ℕ
deriving DecidableEq

/-- All relationships incident to an entity (the
`entity_a_id == id | entity_b_id == id` query, no strength floor). -/
def incidentRels (g : List Relationship) (eid : ℕ) : List Relationship :=
  g.filter (fun r => r.entity_a_id = eid ∨ r.entity_b_id = eid)

/-- `_calculate_reputation`: average strength of incident relationships
plus a verifier boost `min(0.2, avg_verifiers / 50)`, capped at 1.0;
default 0.5 with no relationships. The stored 0-100 strength is used raw
(the source's scale mix). -/
def calcReputation (g : List Relationship) (eid : ℕ) : ℝ :=
  let rels := incidentRels g eid
  if rels.isEmpty then 1/2
  else
    let avgStrength := (rels.map (fun r => (r.strength : ℝ))).sum / rels.length
    let avgVerifiers := (rels.map (fun r => (r.verifier_count : ℝ))).sum / rels.length
    min 1 (avgStrength + min (2/10) (avgVerifiers / 50))

/-- `_calculate_reciprocity`: `float(avg_strength) if avg_strength else 0.5`.
The SQL AVG is NULL with no rows, and Python treats both None and 0.0 as
falsy, so an all-zero average also yields 0.5. -/
def calcReciprocity (g : List Relationship) (eid : ℕ) : ℝ :=
  let rels := incidentRels g eid
  if rels.isEmpty then 1/2
  else
    let avgStrength := (rels.map (fun r => (r.strength : ℝ))).sum / rels.length
    if avgStrength = 0 then 1/2 else avgStrength

/-- Whether a relationship's `last_interaction` lies within the last 30
days (a NULL date never satisfies the SQL comparison). -/
def isRecent (r : Relationship) : Bool :=
  match r.last_interaction with
  | some d => d ≤ 30
  | none => false

/-- `_calculate_consistency`: `min(1.0, 1.5 * recent / total)`, default 0.5
with no relationships. -/
def calcConsistency (g : List Relationship) (eid : ℕ) : ℝ :=
  let rels := incidentRels g eid
  let recent := rels.filter (fun r => isRecent r)
  if rels.length = 0 then 1/2
  else min 1 (((recent.length : ℝ) / (rels.length : ℝ)) * (3/2))

/-- `_calculate_verification_ratio`: fraction of incident relationships
with consensus score at least 0.7; 0.0 with no relationships. -/
def calcVerifiedFraction (g : List Relationship) (eid : ℕ) : ℝ :=
  let rels := incidentRels g eid
  if rels.isEmpty then 0
  else ((rels.filter (fun r => (7 : ℚ)/10 ≤ r.consensus_score)).length : ℝ) / rels.length

/-- `_calculate_direct_metrics`'s composite with the fixed weights
{reputation 0.35, reciprocity 0.25, consistency 0.25, verification 0.15}. -/
def directComposite (g : List Relationship) (eid : ℕ) : ℝ :=
  (35/100) * calcReputation g eid + (25/100) * calcReciprocity g eid
    + (25/100) * calcConsistency g eid + (15/100) * calcVerifiedFraction g eid

/-- `_apply_temporal_decay`: `strength * 0.5` for an unknown interaction
time, otherwise `max(0.1 * strength, strength * exp(-days / 365.25))`. -/
def applyTemporalDecay (strength : ℝ) (li : Option ℕ) : ℝ :=
  match li with
  | none => strength * (1/2)
  | some d => max ((1/10) * strength) (strength * Real.exp (-(d : ℝ) / 365.25))

/-- The per-edge trust score computed inside `_build_trust_network`
(lines 203-211): temporal decay on the 0-1 strength plus the verifier
boost, capped at 1.0. -/
def teEdgeTrust (r : Relationship) : ℝ :=
  min 1 (applyTemporalDecay ((r.strength : ℝ) / 100) r.last_interaction
    + min (2/10) ((r.verifier_count : ℝ) / 50))

/-- Value stored in the trust network for one neighbor. -/
structure NetEdge where
  trust_score : ℝ
  weight : ℚ
  rel_id : ℕ

/-- Association-list lookup (Python `dict` access). -/
def assocGet {β : Type _} : List (ℕ × β) → ℕ → Option β
  | [], _ => none
  | (k', v) :: rest, k => if k' = k then some v else assocGet rest k

/-- Association-list update (Python `dict` assignment: replaces in place,
appends a new key at the end). -/
def assocSet {β : Type _} : List (ℕ × β) → ℕ → β → List (ℕ × β)
  | [], k, v => [(k, v)]
  | (k', v') :: rest, k, v =>
    if k' = k then (k, v) :: rest else (k', v') :: assocSet rest k v

/-- The `network` dict of `_build_trust_network`. -/
abbrev Network := List (ℕ × List (ℕ × NetEdge))

/-- Mutable state of `build_recursive`: the network under construction,
the visited set, and the trace of entities that were actually expanded
(i.e. had their relationship query executed). -/
structure BuildState where
  network : Network
  visited : List ℕ
  expansions : List ℕ

/-- Incident relationships with `strength >= 30` (the network-building
query's floor). -/
def incidentStrong (g : List Relationship) (eid : ℕ) : List Relationship :=
  g.filter (fun r => (r.entity_a_id = eid ∨ r.entity_b_id = eid) ∧ 30 ≤ r.strength)

/-- The other endpoint of a relationship relative to `current`. -/
def neighborOf (r : Relationship) (current : ℕ) : ℕ :=
  if r.entity_a_id = current then r.entity_b_id else r.entity_a_id

/-- The `for rel in relationships` loop body of `build_recursive`:
stores the neighbor entry and, when `depth > 1`, recurses into the
neighbor via `buildNext`. -/
def buildRecEdges (buildNext : ℕ → BuildState → BuildState) (current : ℕ)
    (recurse : Bool) : List Relationship → BuildState → BuildState
  | [], st => st
  | r :: rs, st =>
    let nbr := neighborOf r current
    let inner := (assocGet st.network current).getD []
    let edge : NetEdge := ⟨teEdgeTrust r, r.consensus_score, r.rid⟩
    let st1 : BuildState :=
      { st with network := assocSet st.network current (assocSet inner nbr edge) }
    let st2 := if recurse then buildNext nbr st1 else st1
    buildRecEdges buildNext current recurse rs st2

/-- `build_recursive(current_id, depth)`: returns unchanged when the depth
is exhausted or the entity was already visited; otherwise marks it
visited, records the expansion, ensures a network entry, and processes
the strong incident relationships. -/
def buildRec (g : List Relationship) (current : ℕ) (depth : ℕ)
    (st : BuildState) : BuildState :=
  match depth with
  | 0 => st
  | d + 1 =>
    if current ∈ st.visited then st
    else
      let st1 : BuildState :=
        { st with visited := st.visited ++ [current],
                  expansions := st.expansions ++ [current] }
      let st2 : BuildState :=
        if (assocGet st1.network current).isNone
        then { st1 with network := st1.network ++ [(current, [])] }
        else st1
      buildRecEdges (fun nbr s => buildRec g nbr d s) current
        (decide (1 ≤ d)) (incidentStrong g current) st2

/-- `_build_trust_network`: a fresh visited set per call. -/
def buildTrustNetwork (g : List Relationship) (eid : ℕ) (depth : ℕ) : Network :=
  (buildRec g eid depth ⟨[], [], []⟩).network

/-- The neighbor-aggregation loop of `_calculate_network_trust`,
threading `(total_trust, total_weight, expansion trace)`; `next` is the
recursive network-trust computation used when `max_depth > 1`. -/
def propagateFold (next : ℕ → ℝ × List ℕ) (doRec : Bool) :
    List (ℕ × NetEdge) → ℝ × ℝ × List ℕ → ℝ × ℝ × List ℕ
  | [], acc => acc
  | (nbr, e) :: rest, (tt, tw, ex) =>
    let step : ℝ × List ℕ :=
      if doRec then
        let r := next nbr
        (e.trust_score * (7/10 + (3/10) * r.1), ex ++ r.2)
      else (e.trust_score, ex)
    propagateFold next doRec rest
      (tt + step.1 * (e.weight : ℝ), tw + (e.weight : ℝ), step.2)

/-- `_calculate_network_trust(entity_id, max_depth)`, instrumented to also
return the trace of all entity expansions performed anywhere inside the
computation (its own network build plus all recursive ones). -/
def calcNetworkTrust (g : List Relationship) (eid : ℕ) (depth : ℕ) : ℝ × List ℕ :=
  match depth with
  | 0 => (0, [])
  | d + 1 =>
    let st := buildRec g eid (d + 1) ⟨[], [], []⟩
    match st.network with
    | [] => (0, st.expansions)
    | _ =>
      let items := (assocGet st.network eid).getD []
      let acc := propagateFold (fun nbr => calcNetworkTrust g nbr d)
        (decide (1 ≤ d)) items (0, 0, st.expansions)
      (if 0 < acc.2.1 then acc.1 / acc.2.1 else 0, acc.2.2)

/-- `calculate_trust_score`: `0.7 * direct composite + 0.3 * network
trust`, optional Laplace-noise clamp (`_add_differential_privacy` with the
drawn noise passed in explicitly), then the final clamp to [0, 1]. -/
def calcTrustScore (g : List Relationship) (eid : ℕ) (maxDepth : ℕ)
    (privacy : Bool) (noise : ℝ) : ℝ :=
  let direct := directComposite g eid
  let network := (calcNetworkTrust g eid maxDepth).1
  let t := (7/10) * direct + (3/10) * network
  let t2 := if privacy then max 0 (min 1 (t + noise)) else t
  min 1 (max 0 t2)

/-! ## PathFinder (`app/services/pathfinder.py`)

The search algorithms only consume the adjacency dictionaries, whose
`trust_score`/`verification_score` entries are floats; they are embedded
polymorphically over a linear ordered field so that the same definitions
serve the real-valued graph produced by `_build_enhanced_graph` and
decidable concrete runs over `ℚ`. The while-loops take explicit fuel; the
outer `Option` distinguishes running out of fuel (`none`, which the
Python loops never do) from a genuine no-path result (`some none`). -/

/-- One adjacency entry of the enhanced graph: the edge dict built in
`_build_enhanced_graph`. `dst` is the dict's `"to"` key. -/
structure EdgeInfo (α : Type) where
  dst : ℕ
  relationship_id : ℕ
  strength : ℚ
  trust_score : α
  verification_score : α
  verifier_count : ℕ
  last_interaction : Option ℕ
deriving DecidableEq

/-- The adjacency dictionary. -/
abbrev Graph (α : Type) := List (ℕ × List (EdgeInfo α))

/-- `_calculate_edge_cost`:
`max(0.1, (1.0 - min(1.0, trust_score + 0.1 * verification_score)) * 10)`. -/
def calcEdgeCost {α : Type} [LinearOrderedField α] (e : EdgeInfo α) : α :=
  max (1/10) ((1 - min 1 (e.trust_score + (1/10) * e.verification_score)) * 10)

/-- `_trust_heuristic`: 0 at the target, 5.0 for an isolated node, and
otherwise average neighbor cost times the estimated 2.0 remaining hops. -/
def trustHeuristic {α : Type} [LinearOrderedField α] (current target : ℕ)
    (graph : Graph α) : α :=
  if current = target then 0
  else
    match (assocGet graph current).getD [] with
    | [] => 5
    | neighbors =>
      let avgTrust := (neighbors.map (fun e => e.trust_score)).sum / neighbors.length
      ((1 - avgTrust) * 10) * 2

/-- Generic stable min-extraction from a plain list, standing in for the
`heapq` pops: returns the leftmost entry than which no later entry is
strictly better, plus the remaining entries in order. In the actual runs
all heap keys are distinct (per node, pushed costs strictly decrease), so
this is exactly the heap's pop. -/
def popBest {ε : Type} (better : ε → ε → Bool) : List ε → Option (ε × List ε)
  | [] => none
  | e :: es =>
    match popBest better es with
    | none => some (e, [])
    | some (m, rest) => if better m e then some (m, e :: rest) else some (e, es)

/-- Dijkstra's heap order on `(cost, node, path)` tuples: Python compares
the cost, then the node id. -/
def dijkstraBetter {α : Type} [LinearOrderedField α]
    (x y : α × ℕ × List (EdgeInfo α)) : Bool :=
  decide (x.1 < y.1 ∨ (x.1 = y.1 ∧ x.2.1 < y.2.1))

/-- The neighbor-relaxation loop of `_dijkstra_path`, threading the
`distances` dict and the queue (pushes append; `popBest` does the
ordering). -/
def dijkstraRelax {α : Type} [LinearOrderedField α] (exclude visited : List ℕ)
    (cost : α) (path : List (EdgeInfo α)) :
    List (EdgeInfo α) → List (ℕ × α) → List (α × ℕ × List (EdgeInfo α)) →
    List (ℕ × α) × List (α × ℕ × List (EdgeInfo α))
  | [], dist, pq => (dist, pq)
  | e :: es, dist, pq =>
    if e.dst ∈ exclude ∨ e.dst ∈ visited then
      dijkstraRelax exclude visited cost path es dist pq
    else
      let newCost := cost + calcEdgeCost e
      let push : Bool :=
        match assocGet dist e.dst with
        | none => true
        | some dOld => decide (newCost < dOld)
      if push then
        dijkstraRelax exclude visited cost path es (assocSet dist e.dst newCost)
          (pq ++ [(newCost, e.dst, path ++ [e])])
      else dijkstraRelax exclude visited cost path es dist pq

/-- The while-loop of `_dijkstra_path`: pop the cheapest entry, skip
visited nodes, mark visited, prune at the hop limit, return at the
target, otherwise relax the neighbors. -/
def dijkstraLoop {α : Type} [LinearOrderedField α] (graph : Graph α)
    (endN maxHops : ℕ) (exclude : List ℕ) :
    ℕ → List (α × ℕ × List (EdgeInfo α)) → List ℕ → List (ℕ × α) →
    Option (Option (List (EdgeInfo α)))
  | 0, _, _, _ => none
  | fuel + 1, pq, visited, dist =>
    match popBest dijkstraBetter pq with
    | none => some none
    | some ((cost, current, path), rest) =>
      if current ∈ visited then
        dijkstraLoop graph endN maxHops exclude fuel rest visited dist
      else
        let visited' := visited ++ [current]
        if maxHops ≤ path.length then
          dijkstraLoop graph endN maxHops exclude fuel rest visited' dist
        else if current = endN then some (some path)
        else
          let next := dijkstraRelax exclude visited' cost path
            ((assocGet graph current).getD []) dist rest
          dijkstraLoop graph endN maxHops exclude fuel next.2 visited' next.1

/-- `_dijkstra_path`: fails immediately when the start is not a graph key;
the queue starts at `[(0, start, [])]` and `distances = {start: 0}`. -/
def dijkstraPath {α : Type} [LinearOrderedField α] (graph : Graph α)
    (start endN : ℕ) (maxHops : ℕ) (exclude : List ℕ) (fuel : ℕ) :
    Option (Option (List (EdgeInfo α))) :=
  if (assocGet graph start).isNone then some none
  else dijkstraLoop graph endN maxHops exclude fuel [(0, start, [])] [] [(start, 0)]

/-- A* heap order on `(f_score, g_score, node, path)` tuples. -/
def astarBetter {α : Type} [LinearOrderedField α]
    (x y : α × α × ℕ × List (EdgeInfo α)) : Bool :=
  decide (x.1 < y.1 ∨ (x.1 = y.1 ∧ (x.2.1 < y.2.1 ∨
    (x.2.1 = y.2.1 ∧ x.2.2.1 < y.2.2.1))))

/-- The neighbor loop of `_astar_path`, threading the `g_scores` dict and
the open set. -/
def astarRelax {α : Type} [LinearOrderedField α] (graph : Graph α)
    (endN : ℕ) (exclude closed : List ℕ) (gScore : α) (path : List (EdgeInfo α)) :
    List (EdgeInfo α) → List (ℕ × α) → List (α × α × ℕ × List (EdgeInfo α)) →
    List (ℕ × α) × List (α × α × ℕ × List (EdgeInfo α))
  | [], gs, pq => (gs, pq)
  | e :: es, gs, pq =>
    if e.dst ∈ exclude ∨ e.dst ∈ closed then
      astarRelax graph endN exclude closed gScore path es gs pq
    else
      let tentative := gScore + calcEdgeCost e
      let skip : Bool :=
        match assocGet gs e.dst with
        | none => false
        | some gOld => decide (gOld ≤ tentative)
      if skip then astarRelax graph endN exclude closed gScore path es gs pq
      else
        let h := trustHeuristic e.dst endN graph
        astarRelax graph endN exclude closed gScore path es
          (assocSet gs e.dst tentative)
          (pq ++ [(tentative + h, tentative, e.dst, path ++ [e])])

/-- The while-loop of `_astar_path`. -/
def astarLoop {α : Type} [LinearOrderedField α] (graph : Graph α)
    (endN maxHops : ℕ) (exclude : List ℕ) :
    ℕ → List (α × α × ℕ × List (EdgeInfo α)) → List ℕ → List (ℕ × α) →
    Option (Option (List (EdgeInfo α)))
  | 0, _, _, _ => none
  | fuel + 1, pq, closed, gs =>
    match popBest astarBetter pq with
    | none => some none
    | some ((_, gScore, current, path), rest) =>
      if current ∈ closed then
        astarLoop graph endN maxHops exclude fuel rest closed gs
      else
        let closed' := closed ++ [current]
        if maxHops ≤ path.length then
          astarLoop graph endN maxHops exclude fuel rest closed' gs
        else if current = endN then some (some path)
        else
          let next := astarRelax graph endN exclude closed' gScore path
            ((assocGet graph current).getD []) gs rest
          astarLoop graph endN maxHops exclude fuel next.2 closed' next.1

/-- `_astar_path`: requires both endpoints to be graph keys; the open set
starts at `[(0, 0, start, [])]` and `g_scores = {start: 0}`. -/
def astarPath {α : Type} [LinearOrderedField α] (graph : Graph α)
    (start endN : ℕ) (maxHops : ℕ) (exclude : List ℕ) (fuel : ℕ) :
    Option (Option (List (EdgeInfo α))) :=
  if (assocGet graph start).isNone ∨ (assocGet graph endN).isNone then some none
  else astarLoop graph endN maxHops exclude fuel [(0, 0, start, [])] [] [(start, 0)]

/-- The inner neighbor scan of `_bfs_path`: skips excluded entities,
returns as soon as a neighbor is the target, and otherwise enqueues
unvisited neighbors. -/
def bfsScan {α : Type} (endN : ℕ) (exclude : List ℕ) (path : List (EdgeInfo α)) :
    List (EdgeInfo α) → List ℕ → List (ℕ × List (EdgeInfo α)) →
    Option (List (EdgeInfo α)) × List ℕ × List (ℕ × List (EdgeInfo α))
  | [], visited, queue => (none, visited, queue)
  | e :: es, visited, queue =>
    if e.dst ∈ exclude then bfsScan endN exclude path es visited queue
    else if e.dst = endN then (some (path ++ [e]), visited, queue)
    else if e.dst ∈ visited then bfsScan endN exclude path es visited queue
    else bfsScan endN exclude path es (visited ++ [e.dst])
      (queue ++ [(e.dst, path ++ [e])])

/-- The while-loop of `_bfs_path` over the FIFO queue. -/
def bfsLoop {α : Type} (graph : Graph α) (endN maxHops : ℕ) (exclude : List ℕ) :
    ℕ → List (ℕ × List (EdgeInfo α)) → List ℕ →
    Option (Option (List (EdgeInfo α)))
  | 0, _, _ => none
  | _ + 1, [], _ => some none
  | fuel + 1, (current, path) :: rest, visited =>
    if maxHops ≤ path.length then
      bfsLoop graph endN maxHops exclude fuel rest visited
    else
      match bfsScan endN exclude path ((assocGet graph current).getD []) visited rest with
      | (some p, _, _) => some (some p)
      | (none, visited', queue') =>
        bfsLoop graph endN maxHops exclude fuel queue' visited'

/-- `_bfs_path`: requires both endpoints to be graph keys; starts with
queue `[(start, [])]` and `visited = {start}`. -/
def bfsPath {α : Type} (graph : Graph α) (start endN : ℕ) (maxHops : ℕ)
    (exclude : List ℕ) (fuel : ℕ) : Option (Option (List (EdgeInfo α))) :=
  if (assocGet graph start).isNone ∨ (assocGet graph endN).isNone then some none
  else bfsLoop graph endN maxHops exclude fuel [(start, [])] [start]

/-- `_calculate_relationship_trust`: 0-1 strength, temporal decay only
when `last_interaction` exists, verifier boost, capped at 1.0. -/
def pfRelationshipTrust (r : Relationship) : ℝ :=
  let base : ℝ := (r.strength : ℝ) / 100
  let decayed : ℝ :=
    match r.last_interaction with
    | none => base
    | some d => max ((1/10) * base) (base * Real.exp (-(d : ℝ) / 365.25))
  min 1 (decayed + min (2/10) ((r.verifier_count : ℝ) / 50))

/-- `defaultdict(list)` append used by `_build_enhanced_graph`. -/
def graphAppend {α : Type} (g : Graph α) (k : ℕ) (e : EdgeInfo α) : Graph α :=
  match assocGet g k with
  | some l => assocSet g k (l ++ [e])
  | none => g ++ [(k, [e])]

/-- Insert both directions of one relationship. -/
def addRelEdges (g : Graph ℝ) (r : Relationship) : Graph ℝ :=
  let trust := pfRelationshipTrust r
  let eAB : EdgeInfo ℝ :=
    ⟨r.entity_b_id, r.rid, r.strength, trust, (r.consensus_score : ℝ),
      r.verifier_count, r.last_interaction⟩
  let eBA : EdgeInfo ℝ :=
    ⟨r.entity_a_id, r.rid, r.strength, trust, (r.consensus_score : ℝ),
      r.verifier_count, r.last_interaction⟩
  graphAppend (graphAppend g r.entity_a_id eAB) r.entity_b_id eBA

/-- `_build_enhanced_graph`: queries relationships with
`strength >= max(min_strength * 100, 30)` and an optional type filter
(an empty filter list is falsy, hence no filter), then builds the
undirected adjacency dictionary with fresh per-edge trust scores. -/
def buildEnhancedGraph (rels : List Relationship) (minStrength : ℚ)
    (rtypes : List ℕ) : Graph ℝ :=
  let adjusted := max (minStrength * 100) 30
  let selected := rels.filter (fun r => adjusted ≤ r.strength)
  let selected :=
    if rtypes.isEmpty then selected
    else selected.filter (fun r => r.rel_type ∈ rtypes)
  selected.foldl addRelEdges []

/-- One hop of the response. -/
structure GraphHop where
  from_entity : ℕ
  to_entity : ℕ
  relationship_id : ℕ
  strength : ℚ
deriving DecidableEq

/-- `GraphPathResponse`. -/
structure GraphPathResponse where
  from_entity : ℕ
  to_entity : ℕ
  hops : List GraphHop
  total_strength : ℝ
  distance : ℕ

/-- The hop list built by `_path_to_response_enhanced`, threading
`current` from the source through each edge's `"to"`. -/
def responseHops {α : Type} (fromE : ℕ) : List (EdgeInfo α) → List GraphHop
  | [] => []
  | e :: es => ⟨fromE, e.dst, e.relationship_id, e.strength⟩ :: responseHops e.dst es

/-- `_calculate_path_trust_strength`: harmonic mean of the positive trust
scores, times the `0.9 ** (hops - 1)` length penalty, capped at 1.0;
0.0 for an empty or all-nonpositive list. -/
def calcPathTrustStrength (ts : List ℝ) : ℝ :=
  if ts.isEmpty then 0
  else
    let valid := ts.filter (fun s => 0 < s)
    if valid.isEmpty then 0
    else
      let harmonicMean := (valid.length : ℝ) / (valid.map (fun s => 1 / s)).sum
      min 1 (harmonicMean * (9/10) ^ (ts.length - 1))

/-- `_path_to_response_enhanced`. -/
def pathToResponseEnhanced (path : List (EdgeInfo ℝ)) (fromE toE : ℕ) :
    GraphPathResponse :=
  let hops := responseHops fromE path
  { from_entity := fromE
    to_entity := toE
    hops := hops
    total_strength := calcPathTrustStrength (path.map (fun e => e.trust_score))
    distance := hops.length }

/-- Algorithm selector; any string other than `astar`/`dijkstra` falls
back to BFS, so the three constructors cover all behaviors. -/
inductive Algorithm
  | astar
  | dijkstra
  | bfs
deriving DecidableEq

/-- `find_path` (without the external cache layer): `None` on a self-path,
otherwise build the graph, run the selected search, and convert a found
path to the response. Outer `none` means the fuel ran out. -/
def findPath (rels : List Relationship) (fromE toE : ℕ) (maxHops : ℕ)
    (minStrength : ℚ) (rtypes : List ℕ) (exclude : List ℕ) (alg : Algorithm)
    (fuel : ℕ) : Option (Option GraphPathResponse) :=
  if fromE = toE then some none
  else
    let graph := buildEnhancedGraph rels minStrength rtypes
    let res :=
      match alg with
      | .astar => astarPath graph fromE toE maxHops exclude fuel
      | .dijkstra => dijkstraPath graph fromE toE maxHops exclude fuel
      | .bfs => bfsPath graph fromE toE maxHops exclude fuel
    match res with
    | none => none
    | some none => some none
    | some (some p) => some (some (pathToResponseEnhanced p fromE toE))

/-- The claim-side path-strength formula, transcribed from the spec
sentence: harmonic mean of the non-zero trust scores, length penalty
`0.9^(hopCount - 1)`, result clamped to [0, 1]. -/
def pathStrengthSpec (ts : List ℝ) : ℝ :=
  let nz := ts.filter (fun s => s ≠ 0)
  if nz.isEmpty then 0
  else
    max 0 (min 1 (((nz.length : ℝ) / (nz.map (fun s => 1 / s)).sum)
      * (9/10) ^ (ts.length - 1)))

/-- An edge occurring somewhere in a graph's adjacency dictionary. -/
def InGraph {α : Type} (G : Graph α) (e : EdgeInfo α) : Prop :=
  ∃ k l, assocGet G k = some l ∧ e ∈ l

/-- Validity of a path against a graph and an exclusion set: every edge
is a graph edge and no edge destination is excluded. -/
def PathOk {α : Type} (G : Graph α) (exclude : List ℕ) (p : List (EdgeInfo α)) : Prop :=
  ∀ e ∈ p, InGraph G e ∧ e.dst ∉ exclude

/-! ## Concrete inputs used by counterexamples and witnesses -/

/-- A reputation lookup with no known attesters. -/
def repNone : ℕ → Option ℕ := fun _ => none

/-- A fresh verify attestation with confidence 50 by an unknown attester. -/
def attV50 : Attestation := ⟨0, .verify, 50, 0⟩

/-- A fresh verify attestation with confidence 80 by an unknown attester. -/
def attV80 : Attestation := ⟨1, .verify, 80, 0⟩

/-- A fresh dispute attestation with confidence 100 by an unknown attester. -/
def attD100 : Attestation := ⟨2, .dispute, 100, 0⟩

/-- A single relationship between entities 1 and 2 (strength 80, consensus
0.9, no recorded last interaction). -/
def relAB : List Relationship := [⟨0, 1, 2, 80, 9/10, 0, 0, none⟩]

/-- A single relationship row used for the pathfinding examples. -/
def rel12 : Relationship := ⟨0, 1, 2, 80, 1/2, 0, 0, none⟩

/-- The relationship with no last-interaction date used for C6. -/
def relNoDate : Relationship := ⟨3, 4, 5, 80, 0, 0, 0, none⟩

/-- The same relationship with a last interaction 0 days ago. -/
def relFresh : Relationship := ⟨3, 4, 5, 80, 0, 0, 0, some 0⟩

/-- The pathfinder adjacency entry that `_build_enhanced_graph` produces
for `rel12` in the 1 → 2 direction. -/
def bEdge12 : EdgeInfo ℝ :=
  ⟨2, 0, 80, pfRelationshipTrust rel12, (((1 : ℚ)/2 : ℚ) : ℝ), 0, none⟩

/-- The response `find_path` returns for the 1 → 2 query over `[rel12]`. -/
def resp12 : GraphPathResponse := pathToResponseEnhanced [bEdge12] 1 2

/-- Concrete rational-valued line graph 1 — 2 — 3 for the hop-limit
comparison (trust 0.8, verification 0.5 on each edge, matching a fresh
strength-80 relationship). -/
def lineEdge (dst rid : ℕ) : EdgeInfo ℚ := ⟨dst, rid, 80, 8/10, 1/2, 0, none⟩

/-- The line graph's adjacency dictionary. -/
def lineGraph : Graph ℚ :=
  [(1, [lineEdge 2 0]), (2, [lineEdge 1 0, lineEdge 3 1]), (3, [lineEdge 2 1])]

/-- A single real-valued edge with trust score 1/2, used by the C7
witness. -/
def edgeHalf : EdgeInfo ℝ := ⟨2, 0, 80, 1/2, 1/2, 0, none⟩

/-! ## Theorems. Shared helper lemmas first, then one theorem (plus
counterexample/witness where needed) per claim. -/

theorem decayFactor_pos (d : ℕ) : 0 < decayFactor d :=
  Real.rpow_pos_of_pos (by norm_num) _

theorem decayFactor_zero : decayFactor 0 = 1 := by
  simp [decayFactor]

theorem attesterReputation_nonneg (rep : ℕ → Option ℕ) (did : ℕ) :
    0 ≤ attesterReputation rep did := by
  unfold attesterReputation
  cases rep did with
  | none => norm_num
  | some t => positivity

theorem reputationMultiplier_nonneg (rep : ℕ → Option ℕ) (did : ℕ) :
    0 ≤ reputationMultiplier rep did := by
  unfold reputationMultiplier
  have := attesterReputation_nonneg rep did
  nlinarith

theorem finalWeight_nonneg_of_verify (rep : ℕ → Option ℕ) (a : Attestation)
    (h : a.attestation_type = AttType.verify) : 0 ≤ finalWeight rep a := by
  unfold finalWeight
  rw [h]
  have h1 := reputationMultiplier_nonneg rep a.attester_did
  have h2 := (decayFactor_pos a.age_days).le
  have h3 : (0 : ℝ) ≤ (a.confidence : ℝ) / 100 := by positivity
  have : baseWeight AttType.verify = 1 := rfl
  rw [this]
  positivity

theorem finalWeight_nonpos_of_dispute (rep : ℕ → Option ℕ) (a : Attestation)
    (h : a.attestation_type = AttType.dispute) : finalWeight rep a ≤ 0 := by
  unfold finalWeight
  rw [h]
  have h1 := reputationMultiplier_nonneg rep a.attester_did
  have h2 := (decayFactor_pos a.age_days).le
  have h3 : (0 : ℝ) ≤ (a.confidence : ℝ) / 100 := by positivity
  have hb : baseWeight AttType.dispute = -(3/2) := rfl
  rw [hb]
  calc -(3/2) * reputationMultiplier rep a.attester_did * decayFactor a.age_days
        * ((a.confidence : ℝ) / 100)
      = -((3/2) * reputationMultiplier rep a.attester_did * decayFactor a.age_days
        * ((a.confidence : ℝ) / 100)) := by ring
  _ ≤ 0 := neg_nonpos.2 (by positivity)

theorem weightedSum_append (rep : ℕ → Option ℕ) (S : List Attestation)
    (a : Attestation) :
    weightedSum rep (S ++ [a]) = weightedSum rep S + finalWeight rep a := by
  simp [weightedSum]

theorem totalWeight_append (rep : ℕ → Option ℕ) (S : List Attestation)
    (a : Attestation) :
    totalWeight rep (S ++ [a]) = totalWeight rep S + |finalWeight rep a| := by
  simp [totalWeight]

theorem totalWeight_nonneg (rep : ℕ → Option ℕ) (S : List Attestation) :
    0 ≤ totalWeight rep S := by
  apply List.sum_nonneg
  intro x hx
  obtain ⟨a, _, rfl⟩ := List.mem_map.1 hx
  exact abs_nonneg _

theorem weightedSum_of_totalWeight_zero (rep : ℕ → Option ℕ)
    (S : List Attestation) (h : totalWeight rep S = 0) :
    weightedSum rep S = 0 := by
  induction S with
  | nil => simp [weightedSum]
  | cons a S ih =>
    rw [totalWeight, List.map_cons, List.sum_cons] at h
    have htail : 0 ≤ totalWeight rep S := totalWeight_nonneg rep S
    have habs : (0 : ℝ) ≤ |finalWeight rep a| := abs_nonneg _
    rw [show (S.map fun a => |finalWeight rep a|).sum = totalWeight rep S from rfl] at h
    have h1 : |finalWeight rep a| = 0 ∧ totalWeight rep S = 0 :=
      (add_eq_zero_iff_of_nonneg habs htail).1 h
    rw [weightedSum, List.map_cons, List.sum_cons,
      show (S.map (finalWeight rep)).sum = weightedSum rep S from rfl,
      ih h1.2, abs_eq_zero.1 h1.1, add_zero]

theorem pyInt_mono {x y : ℝ} (h : x ≤ y) : pyInt x ≤ pyInt y := by
  unfold pyInt
  split_ifs with hx hy1 hy2
  · exact Int.floor_mono h
  · exact absurd (le_trans hx h) hy1
  · calc ⌈x⌉ ≤ 0 := Int.ceil_le.2 (by simpa using le_of_not_le hx)
    _ ≤ ⌊y⌋ := Int.le_floor.2 (by simpa using hy2)
  · exact Int.ceil_mono h

theorem pyInt_fifty : pyInt 50 = 50 := by
  unfold pyInt
  rw [if_pos (by norm_num)]
  norm_num

theorem clamp_int_mono {z z' : ℤ} (h : z ≤ z') :
    max 0 (min 100 z) ≤ max 0 (min 100 z') :=
  max_le_max le_rfl (min_le_min le_rfl h)

theorem convScore_nonneg (rep : ℕ → Option ℕ) (atts : List Attestation) :
    0 ≤ (calculateConviction rep atts).score := by
  cases atts with
  | nil => simp [calculateConviction, emptyConviction]
  | cons a S =>
    show (0 : ℤ) ≤ (if totalWeight rep (a :: S) = 0 then 50
      else max 0 (min 100 (pyInt (50 + weightedSum rep (a :: S) * 25))))
    split_ifs
    · norm_num
    · exact le_max_left _ _

theorem convScore_le_hundred (rep : ℕ → Option ℕ) (atts : List Attestation) :
    (calculateConviction rep atts).score ≤ 100 := by
  cases atts with
  | nil => simp [calculateConviction, emptyConviction]
  | cons a S =>
    show (if totalWeight rep (a :: S) = 0 then 50
      else max 0 (min 100 (pyInt (50 + weightedSum rep (a :: S) * 25)))) ≤ 100
    split_ifs
    · norm_num
    · exact max_le (by norm_num) (min_le_left _ _)

theorem convScore_cons (rep : ℕ → Option ℕ) (a : Attestation)
    (S : List Attestation) :
    (calculateConviction rep (a :: S)).score =
      (if totalWeight rep (a :: S) = 0 then 50
        else max 0 (min 100 (pyInt (50 + weightedSum rep (a :: S) * 25)))) := rfl

/-- Appending one attestation of nonnegative final weight never lowers the
conviction score. -/
theorem convScore_le_append (rep : ℕ → Option ℕ) (S : List Attestation)
    (a : Attestation) (hw : 0 ≤ finalWeight rep a) :
    (calculateConviction rep S).score ≤
      (calculateConviction rep (S ++ [a])).score := by
  cases S with
  | nil =>
    have h0 : (calculateConviction rep []).score = 0 := rfl
    rw [h0]
    exact convScore_nonneg rep ([] ++ [a])
  | cons s T =>
    have happ : (s :: T) ++ [a] = s :: (T ++ [a]) := rfl
    rw [convScore_cons, happ, convScore_cons]
    rw [← happ, totalWeight_append, weightedSum_append]
    by_cases htw : totalWeight rep (s :: T) = 0
    · have hws : weightedSum rep (s :: T) = 0 :=
        weightedSum_of_totalWeight_zero rep _ htw
      rw [htw, hws, if_pos rfl, zero_add, zero_add]
      by_cases hwa : |finalWeight rep a| = 0
      · rw [if_pos hwa]
      · rw [if_neg hwa]
        calc (50 : ℤ) = max 0 (min 100 (pyInt 50)) := by rw [pyInt_fifty]; decide
        _ ≤ max 0 (min 100 (pyInt (50 + finalWeight rep a * 25))) :=
          clamp_int_mono (pyInt_mono (by nlinarith))
    · have htw' : totalWeight rep (s :: T) + |finalWeight rep a| ≠ 0 := by
        have h1 := (totalWeight_nonneg rep (s :: T)).lt_of_ne (Ne.symm htw)
        have h2 : (0 : ℝ) ≤ |finalWeight rep a| := abs_nonneg _
        nlinarith
      rw [if_neg htw, if_neg htw']
      exact clamp_int_mono (pyInt_mono (by nlinarith))

/-- Appending one attestation of nonpositive final weight to a non-empty
attestation list never raises the conviction score. -/
theorem convScore_append_le (rep : ℕ → Option ℕ) (S : List Attestation)
    (a : Attestation) (hS : S ≠ []) (hw : finalWeight rep a ≤ 0) :
    (calculateConviction rep (S ++ [a])).score ≤
      (calculateConviction rep S).score := by
  cases S with
  | nil => exact absurd rfl hS
  | cons s T =>
    have happ : (s :: T) ++ [a] = s :: (T ++ [a]) := rfl
    rw [convScore_cons, happ, convScore_cons]
    rw [← happ, totalWeight_append, weightedSum_append]
    by_cases htw : totalWeight rep (s :: T) = 0
    · have hws : weightedSum rep (s :: T) = 0 :=
        weightedSum_of_totalWeight_zero rep _ htw
      rw [htw, hws, if_pos rfl, zero_add, zero_add]
      by_cases hwa : |finalWeight rep a| = 0
      · rw [if_pos hwa]
      · rw [if_neg hwa]
        calc max 0 (min 100 (pyInt (50 + finalWeight rep a * 25)))
            ≤ max 0 (min 100 (pyInt 50)) :=
          clamp_int_mono (pyInt_mono (by nlinarith))
        _ = 50 := by rw [pyInt_fifty]; decide
    · have htw' : totalWeight rep (s :: T) + |finalWeight rep a| ≠ 0 := by
        have h1 := (totalWeight_nonneg rep (s :: T)).lt_of_ne (Ne.symm htw)
        have h2 : (0 : ℝ) ≤ |finalWeight rep a| := abs_nonneg _
        nlinarith
      rw [if_neg htw, if_neg htw']
      exact clamp_int_mono (pyInt_mono (by nlinarith))

theorem weightedSum_attV50 : weightedSum repNone [attV50] = 5/8 := by
  simp [weightedSum, finalWeight, baseWeight, reputationMultiplier,
    attesterReputation, repNone, attV50, decayFactor_zero]
  norm_num

theorem totalWeight_attV50 : totalWeight repNone [attV50] = 5/8 := by
  simp [totalWeight, finalWeight, baseWeight, reputationMultiplier,
    attesterReputation, repNone, attV50, decayFactor_zero]
  rw [abs_of_nonneg (by norm_num)]
  norm_num

theorem weightedSum_attD100 : weightedSum repNone [attD100] = -(15/8) := by
  simp [weightedSum, finalWeight, baseWeight, reputationMultiplier,
    attesterReputation, repNone, attD100, decayFactor_zero]
  norm_num

theorem totalWeight_attD100 : totalWeight repNone [attD100] = 15/8 := by
  simp [totalWeight, finalWeight, baseWeight, reputationMultiplier,
    attesterReputation, repNone, attD100, decayFactor_zero]
  rw [abs_of_nonneg (by norm_num)]
  norm_num

theorem convScore_attV50 : (calculateConviction repNone [attV50]).score = 65 := by
  rw [convScore_cons, totalWeight_attV50, weightedSum_attV50,
    if_neg (by norm_num)]
  have hfl : pyInt (50 + 5/8 * 25) = 65 := by
    unfold pyInt
    rw [if_pos (by norm_num), Int.floor_eq_iff]
    constructor <;> norm_num
  rw [hfl]
  decide

/-- Claim C1 counterexample: for a single fresh verify attestation with
confidence 50 by an unknown attester, `weighted_sum = 0.625`, so the
exact pre-rounding value is 65.625; the code's `int()` truncates it to 65
while the claimed round-to-nearest formula gives 66. The claim's equation
is therefore false at this input. -/
theorem C1_counterexample :
    (calculateConviction repNone [attV50]).score = 65 ∧
    specRoundScore repNone [attV50] = 66 ∧
    (calculateConviction repNone [attV50]).score ≠
      specRoundScore repNone [attV50] := by
  have h2 : specRoundScore repNone [attV50] = 66 := by
    unfold specRoundScore
    rw [weightedSum_attV50, round_eq]
    have : ⌊(50 : ℝ) + 5/8 * 25 + 1/2⌋ = 66 := by
      rw [Int.floor_eq_iff]
      constructor <;> norm_num
    rw [this]
    decide
  refine ⟨convScore_attV50, h2, ?_⟩
  rw [convScore_attV50, h2]
  decide

/-- Claim C1, amended: for every non-empty attestation set with non-zero
total weight, the conviction score equals
`clamp(0, 100, int(50 + weightedSum × 25))`, where `weightedSum` is the
signed sum over attestations of
`baseWeight × reputationMultiplier × decay × (confidence/100)` and the
final integer conversion truncates toward zero (Python `int()`), not
round-to-nearest. -/
theorem C1_truncated_score (rep : ℕ → Option ℕ) (atts : List Attestation)
    (hne : atts ≠ []) (htw : totalWeight rep atts ≠ 0) :
    (calculateConviction rep atts).score =
      max 0 (min 100 (pyInt (50 +
        (atts.map (fun a => baseWeight a.attestation_type *
          reputationMultiplier rep a.attester_did * decayFactor a.age_days *
          ((a.confidence : ℝ) / 100))).sum * 25))) := by
  cases atts with
  | nil => exact absurd rfl hne
  | cons a S => rw [convScore_cons, if_neg htw]; rfl

/-- Witness for C1's amended theorem at the single-verify input. -/
theorem C1_truncated_score_witness :
    (calculateConviction repNone [attV50]).score =
      max 0 (min 100 (pyInt (50 +
        ([attV50].map (fun a => baseWeight a.attestation_type *
          reputationMultiplier repNone a.attester_did * decayFactor a.age_days *
          ((a.confidence : ℝ) / 100))).sum * 25))) :=
  C1_truncated_score repNone [attV50] (List.cons_ne_nil _ _)
    (by rw [totalWeight_attV50]; norm_num)

/-- Claim C8: the empty attestation set yields the defined empty result
(score exactly 0, trend `stable`, all counts 0), and every attestation
set yields an integer score within [0, 100]. -/
theorem C8_empty_result_and_range :
    (∀ rep : ℕ → Option ℕ,
      (calculateConviction rep []).score = 0 ∧
      (calculateConviction rep []).trend = Trend.stable ∧
      (calculateConviction rep []).attestation_count = 0 ∧
      (calculateConviction rep []).verify_count = 0 ∧
      (calculateConviction rep []).dispute_count = 0 ∧
      (calculateConviction rep []).strengthen_count = 0 ∧
      (calculateConviction rep []).weaken_count = 0) ∧
    (∀ (rep : ℕ → Option ℕ) (atts : List Attestation),
      0 ≤ (calculateConviction rep atts).score ∧
      (calculateConviction rep atts).score ≤ 100) := by
  constructor
  · intro rep
    exact ⟨rfl, rfl, rfl, rfl, rfl, rfl, rfl⟩
  · intro rep atts
    exact ⟨convScore_nonneg rep atts, convScore_le_hundred rep atts⟩

theorem convScore_attD100 : (calculateConviction repNone [attD100]).score = 3 := by
  rw [convScore_cons, totalWeight_attD100, weightedSum_attD100,
    if_neg (by norm_num)]
  have hfl : pyInt (50 + -(15/8) * 25) = 3 := by
    unfold pyInt
    rw [if_pos (by norm_num), Int.floor_eq_iff]
    constructor <;> norm_num
  rw [hfl]
  decide

/-- Claim C4 counterexample: the empty attestation set scores 0, and
adding one dispute attestation (confidence 100, unknown attester, age 0)
yields score 3 — adding a dispute to the empty set increases the
conviction score, contradicting the claim's "including when S is empty". -/
theorem C4_counterexample :
    (calculateConviction repNone []).score = 0 ∧
    (calculateConviction repNone ([] ++ [attD100])).score = 3 ∧
    (calculateConviction repNone []).score <
      (calculateConviction repNone ([] ++ [attD100])).score := by
  refine ⟨rfl, convScore_attD100, ?_⟩
  have h : (calculateConviction repNone []).score = 0 := rfl
  rw [h, show ([] ++ [attD100]) = [attD100] from rfl, convScore_attD100]
  decide

/-- Claim C4, amended: for every attestation set S and fixed
attester-reputation assignment, adding one verify attestation with
equal-or-higher confidence than every confidence in S never decreases
the conviction score (including when S is empty); adding one dispute
attestation never increases the score provided S is non-empty (with the
empty S the dispute raises the score from the empty-case 0, as the
counterexample shows). -/
theorem C4_monotonicity (rep : ℕ → Option ℕ) (S : List Attestation) :
    (∀ v : Attestation, v.attestation_type = AttType.verify →
      (∀ a ∈ S, a.confidence ≤ v.confidence) →
      (calculateConviction rep S).score ≤
        (calculateConviction rep (S ++ [v])).score) ∧
    (∀ d : Attestation, d.attestation_type = AttType.dispute → S ≠ [] →
      (calculateConviction rep (S ++ [d])).score ≤
        (calculateConviction rep S).score) := by
  constructor
  · intro v hv _
    exact convScore_le_append rep S v (finalWeight_nonneg_of_verify rep v hv)
  · intro d hd hS
    exact convScore_append_le rep S d hS (finalWeight_nonpos_of_dispute rep d hd)

/-- Witness for C4's amended theorem: both parts applied at concrete
inputs (a verify of higher confidence appended to a singleton, and a
dispute appended to the same non-empty singleton). -/
theorem C4_monotonicity_witness :
    (calculateConviction repNone [attV50]).score ≤
      (calculateConviction repNone ([attV50] ++ [attV80])).score ∧
    (calculateConviction repNone ([attV50] ++ [attD100])).score ≤
      (calculateConviction repNone [attV50]).score :=
  ⟨(C4_monotonicity repNone [attV50]).1 attV80 rfl (by decide),
   (C4_monotonicity repNone [attV50]).2 attD100 rfl (List.cons_ne_nil _ _)⟩

/-- Claim C6 counterexample: for a strength-80 edge with no
last-interaction date (and no verifiers), the PathFinder's per-edge trust
is 0.8 (no decay applied) while the Trust Engine's is 0.4 (the
unknown-date halving of `_apply_temporal_decay`), so the two per-edge
trust computations disagree on absent dates. -/
theorem C6_counterexample :
    pfRelationshipTrust relNoDate = 4/5 ∧
    teEdgeTrust relNoDate = 2/5 ∧
    pfRelationshipTrust relNoDate ≠ teEdgeTrust relNoDate := by
  have h1 : pfRelationshipTrust relNoDate = 4/5 := by
    simp only [pfRelationshipTrust, relNoDate]
    norm_num
  have h2 : teEdgeTrust relNoDate = 2/5 := by
    simp only [teEdgeTrust, applyTemporalDecay, relNoDate]
    norm_num
  exact ⟨h1, h2, by rw [h1, h2]; norm_num⟩

/-- Claim C6, amended: for every relationship whose last-interaction date
is present, the per-edge trust PathFinder computes equals the Trust
Engine's network-build value, and both equal
`min(1, max(0.1·s, s·exp(−days/365.25)) + min(0.2, verifiers/50))` on the
0-1 strength `s`; with an absent date the two disagree (PathFinder skips
decay, Trust Engine halves), as the counterexample shows. -/
theorem C6_decay_equivalence (r : Relationship) (d : ℕ)
    (h : r.last_interaction = some d) :
    pfRelationshipTrust r = teEdgeTrust r ∧
    pfRelationshipTrust r =
      min 1 (max ((1/10) * ((r.strength : ℝ) / 100))
        (((r.strength : ℝ) / 100) * Real.exp (-(d : ℝ) / 365.25))
        + min (2/10) ((r.verifier_count : ℝ) / 50)) := by
  constructor
  · simp only [pfRelationshipTrust, teEdgeTrust, applyTemporalDecay, h]
  · simp only [pfRelationshipTrust, h]

/-- Witness for C6's amended theorem: the two edge-trust computations
agree on a relationship whose last interaction was 0 days ago. -/
theorem C6_decay_equivalence_witness :
    pfRelationshipTrust relFresh = teEdgeTrust relFresh :=
  (C6_decay_equivalence relFresh 0 rfl).1

theorem incidentStrong_eq_nil (g : List Relationship) (eid : ℕ)
    (h : incidentRels g eid = []) : incidentStrong g eid = [] := by
  rw [incidentRels, List.filter_eq_nil_iff] at h
  rw [incidentStrong, List.filter_eq_nil_iff]
  intro r hr
  simp only [decide_eq_true_eq, not_and]
  intro hab
  exact absurd (by simpa using hab) (by simpa using h r hr)

theorem calcNetworkTrust_isolated (g : List Relationship) (eid : ℕ)
    (h : incidentRels g eid = []) (depth : ℕ) :
    (calcNetworkTrust g eid depth).1 = 0 := by
  have hs : incidentStrong g eid = [] := incidentStrong_eq_nil g eid h
  cases depth with
  | zero => rfl
  | succ d =>
    simp only [calcNetworkTrust, buildRec, List.mem_nil_iff, if_false,
      hs, buildRecEdges]
    simp [assocGet, propagateFold]

/-- Claim C3: the trust score is clamped to [0, 1] for every graph,
entity, depth, privacy setting and noise draw; and an entity with zero
incident edges gets the defined default
`0.7 × (0.35·0.5 + 0.25·0.5 + 0.25·0.5 + 0.15·0) = 0.2975` (privacy off),
never a failure. -/
theorem C3_trust_score_range :
    (∀ (g : List Relationship) (eid maxDepth : ℕ) (privacy : Bool) (noise : ℝ),
      0 ≤ calcTrustScore g eid maxDepth privacy noise ∧
      calcTrustScore g eid maxDepth privacy noise ≤ 1) ∧
    (∀ (g : List Relationship) (eid maxDepth : ℕ),
      incidentRels g eid = [] →
      calcTrustScore g eid maxDepth false 0 = 2975/10000) := by
  constructor
  · intro g eid maxDepth privacy noise
    simp only [calcTrustScore]
    exact ⟨le_min (by norm_num) (le_max_left _ _), min_le_left _ _⟩
  · intro g eid maxDepth h
    have hrep : calcReputation g eid = 1/2 := by
      simp [calcReputation, h]
    have hrec : calcReciprocity g eid = 1/2 := by
      simp [calcReciprocity, h]
    have hcon : calcConsistency g eid = 1/2 := by
      simp [calcConsistency, h]
    have hver : calcVerifiedFraction g eid = 0 := by
      simp [calcVerifiedFraction, h]
    have hnet : (calcNetworkTrust g eid maxDepth).1 = 0 :=
      calcNetworkTrust_isolated g eid h maxDepth
    simp only [calcTrustScore, directComposite, hrep, hrec, hcon, hver,
      hnet, Bool.false_eq_true, if_false]
    norm_num

/-- Witness for C3's second conjunct: the empty graph gives the default
0.2975 at depth 3. -/
theorem C3_trust_score_range_witness :
    calcTrustScore [] 0 3 false 0 = 2975/10000 :=
  C3_trust_score_range.2 [] 0 3 rfl

/-- Claim C5 counterexample: on the single edge 1 — 2 with maxDepth 3 the
instrumented propagation expands entity 1 (the starting entity) three
times and entity 2 twice — the visited set is not shared across the
recursive `_calculate_network_trust` calls, so entities are re-expanded
within one top-level computation. -/
theorem C5_counterexample :
    (calcNetworkTrust relAB 1 3).2 = [1, 2, 2, 1, 1] ∧
    ¬ (calcNetworkTrust relAB 1 3).2.Nodup := by
  constructor
  · rfl
  · decide

theorem buildRecEdges_inv (next : ℕ → BuildState → BuildState) (c : ℕ)
    (rec : Bool)
    (hnext : ∀ n s, s.expansions.Nodup → (∀ x ∈ s.expansions, x ∈ s.visited) →
      (next n s).expansions.Nodup ∧
        ∀ x ∈ (next n s).expansions, x ∈ (next n s).visited) :
    ∀ (rels : List Relationship) (st : BuildState), st.expansions.Nodup →
      (∀ x ∈ st.expansions, x ∈ st.visited) →
      (buildRecEdges next c rec rels st).expansions.Nodup ∧
        ∀ x ∈ (buildRecEdges next c rec rels st).expansions,
          x ∈ (buildRecEdges next c rec rels st).visited := by
  intro rels
  induction rels with
  | nil => intro st h1 h2; exact ⟨h1, h2⟩
  | cons r rs ih =>
    intro st h1 h2
    simp only [buildRecEdges]
    cases rec with
    | false =>
      rw [if_neg Bool.false_ne_true]
      exact ih _ h1 h2
    | true =>
      rw [if_pos rfl]
      have h3 := hnext (neighborOf r c)
        (BuildState.mk
          (assocSet st.network c (assocSet ((assocGet st.network c).getD [])
            (neighborOf r c) (NetEdge.mk (teEdgeTrust r) r.consensus_score r.rid)))
          st.visited st.expansions) h1 h2
      exact ih _ h3.1 h3.2

theorem buildRec_inv (g : List Relationship) :
    ∀ (depth : ℕ) (c : ℕ) (st : BuildState), st.expansions.Nodup →
      (∀ x ∈ st.expansions, x ∈ st.visited) →
      (buildRec g c depth st).expansions.Nodup ∧
        ∀ x ∈ (buildRec g c depth st).expansions,
          x ∈ (buildRec g c depth st).visited := by
  intro depth
  induction depth with
  | zero => intro c st h1 h2; exact ⟨h1, h2⟩
  | succ d ih =>
    intro c st h1 h2
    simp only [buildRec]
    by_cases hv : c ∈ st.visited
    · rw [if_pos hv]; exact ⟨h1, h2⟩
    · rw [if_neg hv]
      have h1' : (st.expansions ++ [c]).Nodup := by
        rw [List.nodup_append]
        refine ⟨h1, List.nodup_singleton c, ?_⟩
        intro x hx hxc
        rw [List.mem_singleton] at hxc
        exact hv (hxc ▸ h2 x hx)
      have h2' : ∀ x ∈ st.expansions ++ [c], x ∈ st.visited ++ [c] := by
        intro x hx
        rcases List.mem_append.1 hx with hx | hx
        · exact List.mem_append.2 (Or.inl (h2 x hx))
        · exact List.mem_append.2 (Or.inr hx)
      apply buildRecEdges_inv _ _ _ (fun n s hs1 hs2 => ih n s hs1 hs2)
      · split
        · exact h1'
        · exact h1'
      · split
        · exact h2'
        · exact h2'

/-- Claim C5, amended: each `_build_trust_network` call keeps its own
visited set and never expands an entity twice within that one build (the
expansion trace of a single build has no duplicates); across the
recursive `_calculate_network_trust` calls, however, networks are rebuilt
with fresh visited sets, so one top-level computation can re-expand an
entity (the counterexample re-expands the starting entity at maxDepth 3);
termination is guaranteed by the depth bound. -/
theorem C5_build_no_reexpansion (g : List Relationship) (eid depth : ℕ) :
    ((buildRec g eid depth ⟨[], [], []⟩).expansions).Nodup :=
  (buildRec_inv g depth eid ⟨[], [], []⟩ List.nodup_nil (by intro x hx; cases hx)).1

/-- Claim C9: a self-path query returns NotFound for every combination of
the remaining parameters and every relationship snapshot — the `from ==
to` guard short-circuits before any graph construction or search. -/
theorem C9_self_path (rels : List Relationship) (X maxHops : ℕ) (minS : ℚ)
    (rtypes exclude : List ℕ) (alg : Algorithm) (fuel : ℕ) :
    findPath rels X X maxHops minS rtypes exclude alg fuel = some none := by
  simp [findPath]

theorem filter_pos_eq_filter_ne (ts : List ℝ) (h : ∀ s ∈ ts, 0 ≤ s) :
    ts.filter (fun s => decide (0 < s)) = ts.filter (fun s => decide (s ≠ 0)) := by
  apply List.filter_congr
  intro x hx
  have hx0 := h x hx
  rcases hx0.lt_or_eq with hlt | heq
  · simp [hlt, (ne_of_gt hlt)]
  · simp [← heq]

theorem calcPathTrustStrength_eq_spec (ts : List ℝ) (h : ∀ s ∈ ts, 0 ≤ s) :
    calcPathTrustStrength ts = pathStrengthSpec ts ∧
    0 ≤ calcPathTrustStrength ts ∧ calcPathTrustStrength ts ≤ 1 ∧
    ((∀ s ∈ ts, s = 0) → calcPathTrustStrength ts = 0) := by
  have hfil := filter_pos_eq_filter_ne ts h
  unfold calcPathTrustStrength pathStrengthSpec
  rw [← hfil]
  by_cases hts : ts.isEmpty
  · have : ts = [] := List.isEmpty_iff.1 hts
    subst this
    simp
  · rw [if_neg hts]
    by_cases hval : (ts.filter (fun s => decide (0 < s))).isEmpty
    · rw [if_pos hval, if_pos hval]
      exact ⟨rfl, le_refl 0, by norm_num, fun _ => rfl⟩
    · rw [if_neg hval, if_neg hval]
      have hvne : ts.filter (fun s => decide (0 < s)) ≠ [] :=
        fun hc => hval (by rw [hc]; rfl)
      have hpos : ∀ x ∈ ts.filter (fun s => decide (0 < s)), 0 < x := by
        intro x hx
        have := List.mem_filter.1 hx
        simpa using this.2
      have hsum : 0 < ((ts.filter (fun s => decide (0 < s))).map
          (fun s => 1 / s)).sum := by
        apply List.sum_pos
        · intro x hx
          obtain ⟨y, hy, rfl⟩ := List.mem_map.1 hx
          exact one_div_pos.2 (hpos y hy)
        · intro hc
          exact hvne (List.map_eq_nil_iff.1 hc)
      have hlen : (0 : ℝ) < (ts.filter (fun s => decide (0 < s))).length := by
        have : 0 < (ts.filter (fun s => decide (0 < s))).length :=
          List.length_pos.2 hvne
        exact_mod_cast this
      have hhm : 0 < ((ts.filter (fun s => decide (0 < s))).length : ℝ) /
          ((ts.filter (fun s => decide (0 < s))).map (fun s => 1 / s)).sum :=
        div_pos hlen hsum
      have hpen : (0 : ℝ) < (9/10) ^ (ts.length - 1) :=
        pow_pos (by norm_num) _
      have hprod := mul_pos hhm hpen
      refine ⟨?_, ?_, min_le_left _ _, ?_⟩
      · rw [max_eq_right (le_min zero_le_one hprod.le)]
      · exact le_min zero_le_one hprod.le
      · intro hz
        obtain ⟨v, hv⟩ := List.exists_mem_of_ne_nil _ hvne
        have hv0 : v = 0 := hz v (List.mem_of_mem_filter hv)
        exact absurd (hv0 ▸ hpos v hv) (lt_irrefl 0)

/-- Claim C7: the aggregate strength `_path_to_response_enhanced`
assigns to a returned path equals the harmonic mean of the non-zero edge
trust scores times the `0.9^(hopCount−1)` length penalty clamped to
[0, 1] (the spec-side formula `pathStrengthSpec`), it always lies in
[0, 1], and a path whose trust scores are all zero gets strength 0. -/
theorem C7_path_strength (path : List (EdgeInfo ℝ)) (fromE toE : ℕ)
    (h : ∀ e ∈ path, 0 ≤ e.trust_score) :
    (pathToResponseEnhanced path fromE toE).total_strength =
      pathStrengthSpec (path.map (fun e => e.trust_score)) ∧
    0 ≤ (pathToResponseEnhanced path fromE toE).total_strength ∧
    (pathToResponseEnhanced path fromE toE).total_strength ≤ 1 ∧
    ((∀ e ∈ path, e.trust_score = 0) →
      (pathToResponseEnhanced path fromE toE).total_strength = 0) := by
  have hts : ∀ s ∈ path.map (fun e => e.trust_score), 0 ≤ s := by
    intro s hs
    obtain ⟨e, he, rfl⟩ := List.mem_map.1 hs
    exact h e he
  have hmain := calcPathTrustStrength_eq_spec (path.map fun e => e.trust_score) hts
  have hshow : (pathToResponseEnhanced path fromE toE).total_strength =
      calcPathTrustStrength (path.map fun e => e.trust_score) := rfl
  rw [hshow]
  refine ⟨hmain.1, hmain.2.1, hmain.2.2.1, ?_⟩
  intro hz
  apply hmain.2.2.2
  intro s hs
  obtain ⟨e, he, rfl⟩ := List.mem_map.1 hs
  exact hz e he

/-- Witness for C7 at a single-edge path with trust score 1/2. -/
theorem C7_path_strength_witness :
    (pathToResponseEnhanced [edgeHalf] 1 2).total_strength =
      pathStrengthSpec ([edgeHalf].map (fun e => e.trust_score)) :=
  (C7_path_strength [edgeHalf] 1 2
    (by intro e he; rw [List.mem_singleton] at he; rw [he]; norm_num [edgeHalf])).1

theorem inGraph_of_getD {α : Type} (G : Graph α) (k : ℕ) (e : EdgeInfo α)
    (h : e ∈ (assocGet G k).getD []) : InGraph G e := by
  cases hg : assocGet G k with
  | none => rw [hg] at h; cases h
  | some l => exact ⟨k, l, hg, by rwa [hg, Option.getD_some] at h⟩

theorem popBest_mem {ε : Type} (better : ε → ε → Bool) :
    ∀ (l : List ε) (x : ε) (rest : List ε),
      popBest better l = some (x, rest) → x ∈ l ∧ ∀ y ∈ rest, y ∈ l := by
  intro l
  induction l with
  | nil => intro x rest h; cases h
  | cons e es ih =>
    intro x rest h
    rw [popBest] at h
    cases hpb : popBest better es with
    | none =>
      rw [hpb] at h
      simp only [Option.some.injEq, Prod.mk.injEq] at h
      obtain ⟨rfl, rfl⟩ := h
      exact ⟨List.mem_cons_self _ _, fun y hy => absurd hy (List.not_mem_nil y)⟩
    | some mr =>
      obtain ⟨m, r⟩ := mr
      rw [hpb] at h
      have hmr := ih m r hpb
      dsimp only at h
      cases hbe : better m e with
      | true =>
        rw [hbe, if_pos rfl] at h
        simp only [Option.some.injEq, Prod.mk.injEq] at h
        obtain ⟨rfl, rfl⟩ := h
        refine ⟨List.mem_cons_of_mem _ hmr.1, ?_⟩
        intro y hy
        rcases List.mem_cons.1 hy with rfl | hy
        · exact List.mem_cons_self _ _
        · exact List.mem_cons_of_mem _ (hmr.2 y hy)
      | false =>
        rw [hbe, if_neg Bool.false_ne_true] at h
        simp only [Option.some.injEq, Prod.mk.injEq] at h
        obtain ⟨rfl, rfl⟩ := h
        exact ⟨List.mem_cons_self _ _, fun y hy => List.mem_cons_of_mem _ hy⟩

theorem dijkstraLoop_length {α : Type} [LinearOrderedField α] (G : Graph α)
    (endN maxHops : ℕ) (exclude : List ℕ) :
    ∀ (fuel : ℕ) (pq : List (α × ℕ × List (EdgeInfo α))) (visited : List ℕ)
      (dist : List (ℕ × α)) (p : List (EdgeInfo α)),
      dijkstraLoop G endN maxHops exclude fuel pq visited dist = some (some p) →
      p.length < maxHops := by
  intro fuel
  induction fuel with
  | zero => intro pq visited dist p h; cases h
  | succ f ih =>
    intro pq visited dist p h
    rw [dijkstraLoop] at h
    cases hpb : popBest dijkstraBetter pq with
    | none => rw [hpb] at h; exact absurd h (by simp)
    | some er =>
      obtain ⟨⟨cost, current, path⟩, rest⟩ := er
      rw [hpb] at h
      dsimp only at h
      by_cases hv : current ∈ visited
      · rw [if_pos hv] at h
        exact ih _ _ _ _ h
      · rw [if_neg hv] at h
        by_cases hlen : maxHops ≤ path.length
        · rw [if_pos hlen] at h
          exact ih _ _ _ _ h
        · rw [if_neg hlen] at h
          by_cases hend : current = endN
          · rw [if_pos hend] at h
            have hp : path = p := by
              injection h with h2
              injection h2
            rw [← hp]
            exact lt_of_not_le hlen
          · rw [if_neg hend] at h
            exact ih _ _ _ _ h

theorem astarLoop_length {α : Type} [LinearOrderedField α] (G : Graph α)
    (endN maxHops : ℕ) (exclude : List ℕ) :
    ∀ (fuel : ℕ) (pq : List (α × α × ℕ × List (EdgeInfo α))) (closed : List ℕ)
      (gs : List (ℕ × α)) (p : List (EdgeInfo α)),
      astarLoop G endN maxHops exclude fuel pq closed gs = some (some p) →
      p.length < maxHops := by
  intro fuel
  induction fuel with
  | zero => intro pq closed gs p h; cases h
  | succ f ih =>
    intro pq closed gs p h
    rw [astarLoop] at h
    cases hpb : popBest astarBetter pq with
    | none => rw [hpb] at h; exact absurd h (by simp)
    | some er =>
      obtain ⟨⟨fs, gScore, current, path⟩, rest⟩ := er
      rw [hpb] at h
      dsimp only at h
      by_cases hv : current ∈ closed
      · rw [if_pos hv] at h
        exact ih _ _ _ _ h
      · rw [if_neg hv] at h
        by_cases hlen : maxHops ≤ path.length
        · rw [if_pos hlen] at h
          exact ih _ _ _ _ h
        · rw [if_neg hlen] at h
          by_cases hend : current = endN
          · rw [if_pos hend] at h
            have hp : path = p := by
              injection h with h2
              injection h2
            rw [← hp]
            exact lt_of_not_le hlen
          · rw [if_neg hend] at h
            exact ih _ _ _ _ h

theorem dijkstraRelax_mem {α : Type} [LinearOrderedField α]
    (exclude visited : List ℕ) (cost : α) (path : List (EdgeInfo α)) :
    ∀ (edges : List (EdgeInfo α)) (dist : List (ℕ × α))
      (pq : List (α × ℕ × List (EdgeInfo α)))
      (entry : α × ℕ × List (EdgeInfo α)),
      entry ∈ (dijkstraRelax exclude visited cost path edges dist pq).2 →
      entry ∈ pq ∨ ∃ e ∈ edges, e.dst ∉ exclude ∧ entry.2.2 = path ++ [e] := by
  intro edges
  induction edges with
  | nil => intro dist pq entry h; exact Or.inl h
  | cons e es ih =>
    intro dist pq entry h
    rw [dijkstraRelax] at h
    by_cases hskip : e.dst ∈ exclude ∨ e.dst ∈ visited
    · rw [if_pos hskip] at h
      rcases ih _ _ _ h with h1 | ⟨e', he', hc, heq⟩
      · exact Or.inl h1
      · exact Or.inr ⟨e', List.mem_cons_of_mem _ he', hc, heq⟩
    · rw [if_neg hskip] at h
      dsimp only at h
      have hpush : ∀ dist' pq',
          entry ∈ (dijkstraRelax exclude visited cost path es dist' pq').2 →
          entry ∈ pq' ∨ ∃ e' ∈ e :: es, e'.dst ∉ exclude ∧
            entry.2.2 = path ++ [e'] := by
        intro dist' pq' hmem
        rcases ih _ _ _ hmem with h1 | ⟨e', he', hc, heq⟩
        · exact Or.inl h1
        · exact Or.inr ⟨e', List.mem_cons_of_mem _ he', hc, heq⟩
      have hexc : e.dst ∉ exclude := fun hc => hskip (Or.inl hc)
      cases had : assocGet dist e.dst with
      | none =>
        rw [had] at h
        dsimp only at h
        rw [if_pos rfl] at h
        rcases hpush _ _ h with h1 | h1
        · rcases List.mem_append.1 h1 with h2 | h2
          · exact Or.inl h2
          · rw [List.mem_singleton] at h2
            subst h2
            exact Or.inr ⟨e, List.mem_cons_self _ _, hexc, rfl⟩
        · exact Or.inr h1
      | some dOld =>
        rw [had] at h
        dsimp only at h
        by_cases hlt : cost + calcEdgeCost e < dOld
        · rw [if_pos (by simpa using hlt)] at h
          rcases hpush _ _ h with h1 | h1
          · rcases List.mem_append.1 h1 with h2 | h2
            · exact Or.inl h2
            · rw [List.mem_singleton] at h2
              subst h2
              exact Or.inr ⟨e, List.mem_cons_self _ _, hexc, rfl⟩
          · exact Or.inr h1
        · rw [if_neg (by simpa using hlt)] at h
          exact hpush _ _ h

theorem astarRelax_mem {α : Type} [LinearOrderedField α] (G : Graph α)
    (endN : ℕ) (exclude closed : List ℕ) (gScore : α)
    (path : List (EdgeInfo α)) :
    ∀ (edges : List (EdgeInfo α)) (gs : List (ℕ × α))
      (pq : List (α × α × ℕ × List (EdgeInfo α)))
      (entry : α × α × ℕ × List (EdgeInfo α)),
      entry ∈ (astarRelax G endN exclude closed gScore path edges gs pq).2 →
      entry ∈ pq ∨ ∃ e ∈ edges, e.dst ∉ exclude ∧ entry.2.2.2 = path ++ [e] := by
  intro edges
  induction edges with
  | nil => intro gs pq entry h; exact Or.inl h
  | cons e es ih =>
    intro gs pq entry h
    rw [astarRelax] at h
    by_cases hskip : e.dst ∈ exclude ∨ e.dst ∈ closed
    · rw [if_pos hskip] at h
      rcases ih _ _ _ h with h1 | ⟨e', he', hc, heq⟩
      · exact Or.inl h1
      · exact Or.inr ⟨e', List.mem_cons_of_mem _ he', hc, heq⟩
    · rw [if_neg hskip] at h
      dsimp only at h
      have hpush : ∀ gs' pq',
          entry ∈ (astarRelax G endN exclude closed gScore path es gs' pq').2 →
          entry ∈ pq' ∨ ∃ e' ∈ e :: es, e'.dst ∉ exclude ∧
            entry.2.2.2 = path ++ [e'] := by
        intro gs' pq' hmem
        rcases ih _ _ _ hmem with h1 | ⟨e', he', hc, heq⟩
        · exact Or.inl h1
        · exact Or.inr ⟨e', List.mem_cons_of_mem _ he', hc, heq⟩
      have hexc : e.dst ∉ exclude := fun hc => hskip (Or.inl hc)
      have hpq : ∀ gs' pq',
          entry ∈ (astarRelax G endN exclude closed gScore path es gs'
            (pq' ++ [(gScore + calcEdgeCost e + trustHeuristic e.dst endN G,
              gScore + calcEdgeCost e, e.dst, path ++ [e])])).2 →
          entry ∈ pq' ∨ ∃ e' ∈ e :: es, e'.dst ∉ exclude ∧
            entry.2.2.2 = path ++ [e'] := by
        intro gs' pq' hmem
        rcases hpush _ _ hmem with h1 | h1
        · rcases List.mem_append.1 h1 with h2 | h2
          · exact Or.inl h2
          · rw [List.mem_singleton] at h2
            subst h2
            exact Or.inr ⟨e, List.mem_cons_self _ _, hexc, rfl⟩
        · exact Or.inr h1
      cases hag : assocGet gs e.dst with
      | none =>
        rw [hag] at h
        dsimp only at h
        rw [if_neg Bool.false_ne_true] at h
        exact hpq _ _ h
      | some gOld =>
        rw [hag] at h
        dsimp only at h
        by_cases hle : gOld ≤ gScore + calcEdgeCost e
        · rw [if_pos (by simpa using hle)] at h
          exact hpush _ _ h
        · rw [if_neg (by simpa using hle)] at h
          exact hpq _ _ h

theorem bfsScan_spec {α : Type} (endN : ℕ) (exclude : List ℕ)
    (path : List (EdgeInfo α)) :
    ∀ (edges : List (EdgeInfo α)) (visited : List ℕ)
      (queue : List (ℕ × List (EdgeInfo α))),
      (∀ p', (bfsScan endN exclude path edges visited queue).1 = some p' →
        ∃ e ∈ edges, e.dst ∉ exclude ∧ p' = path ++ [e]) ∧
      (∀ entry ∈ (bfsScan endN exclude path edges visited queue).2.2,
        entry ∈ queue ∨
          ∃ e ∈ edges, e.dst ∉ exclude ∧ entry.2 = path ++ [e]) := by
  intro edges
  induction edges with
  | nil =>
    intro visited queue
    exact ⟨fun p' h => absurd h (by simp [bfsScan]), fun entry h => Or.inl h⟩
  | cons e es ih =>
    intro visited queue
    rw [bfsScan]
    have weaken : ∀ (visited' : List ℕ) (queue' : List (ℕ × List (EdgeInfo α))),
        (∀ entry ∈ queue', entry ∈ queue ∨
          ∃ e' ∈ e :: es, e'.dst ∉ exclude ∧ entry.2 = path ++ [e']) →
        (∀ p', (bfsScan endN exclude path es visited' queue').1 = some p' →
          ∃ e' ∈ e :: es, e'.dst ∉ exclude ∧ p' = path ++ [e']) ∧
        (∀ entry ∈ (bfsScan endN exclude path es visited' queue').2.2,
          entry ∈ queue ∨
            ∃ e' ∈ e :: es, e'.dst ∉ exclude ∧ entry.2 = path ++ [e']) := by
      intro visited' queue' hq
      refine ⟨fun p' h => ?_, fun entry h => ?_⟩
      · obtain ⟨e', he', hc, heq⟩ := (ih visited' queue').1 p' h
        exact ⟨e', List.mem_cons_of_mem _ he', hc, heq⟩
      · rcases (ih visited' queue').2 entry h with h1 | ⟨e', he', hc, heq⟩
        · exact hq entry h1
        · exact Or.inr ⟨e', List.mem_cons_of_mem _ he', hc, heq⟩
    by_cases hexc : e.dst ∈ exclude
    · rw [if_pos hexc]
      exact weaken visited queue (fun entry h => Or.inl h)
    · rw [if_neg hexc]
      by_cases hend : e.dst = endN
      · rw [if_pos hend]
        refine ⟨fun p' h => ?_, fun entry h => Or.inl h⟩
        injection h with h'
        exact ⟨e, List.mem_cons_self _ _, hexc, h'.symm⟩
      · rw [if_neg hend]
        by_cases hvis : e.dst ∈ visited
        · rw [if_pos hvis]
          exact weaken visited queue (fun entry h => Or.inl h)
        · rw [if_neg hvis]
          apply weaken
          intro entry h
          rcases List.mem_append.1 h with h1 | h1
          · exact Or.inl h1
          · rw [List.mem_singleton] at h1
            subst h1
            exact Or.inr ⟨e, List.mem_cons_self _ _, hexc, rfl⟩

theorem bfsLoop_invariant {α : Type} (G : Graph α) (endN maxHops : ℕ)
    (exclude : List ℕ) :
    ∀ (fuel : ℕ) (queue : List (ℕ × List (EdgeInfo α))) (visited : List ℕ)
      (p : List (EdgeInfo α)),
      (∀ entry ∈ queue, PathOk G exclude entry.2 ∧ entry.2.length ≤ maxHops) →
      bfsLoop G endN maxHops exclude fuel queue visited = some (some p) →
      PathOk G exclude p ∧ p.length ≤ maxHops := by
  intro fuel
  induction fuel with
  | zero => intro queue visited p _ h; cases h
  | succ f ih =>
    intro queue visited p hq h
    cases queue with
    | nil => rw [bfsLoop] at h; exact absurd h (by simp)
    | cons entry rest =>
      obtain ⟨current, path⟩ := entry
      rw [bfsLoop] at h
      have hrest : ∀ entry ∈ rest,
          PathOk G exclude entry.2 ∧ entry.2.length ≤ maxHops :=
        fun entry he => hq entry (List.mem_cons_of_mem _ he)
      have hhead := hq (current, path) (List.mem_cons_self _ _)
      by_cases hlen : maxHops ≤ path.length
      · rw [if_pos hlen] at h
        exact ih _ _ _ hrest h
      · rw [if_neg hlen] at h
        have hscan := bfsScan_spec endN exclude path
          ((assocGet G current).getD []) visited rest
        cases hres : bfsScan endN exclude path
            ((assocGet G current).getD []) visited rest with
        | mk found vq =>
          obtain ⟨visited', queue'⟩ := vq
          rw [hres] at h hscan
          cases found with
          | some p' =>
            dsimp only at h
            have hp : p' = p := by
              injection h with h2
              injection h2
            obtain ⟨e, he, hc, heq⟩ := hscan.1 p' rfl
            subst hp
            subst heq
            constructor
            · intro x hx
              rcases List.mem_append.1 hx with hx | hx
              · exact hhead.1 x hx
              · rw [List.mem_singleton] at hx
                subst hx
                exact ⟨inGraph_of_getD G current x he, hc⟩
            · rw [List.length_append, List.length_singleton]
              exact Nat.succ_le_of_lt (lt_of_not_le hlen)
          | none =>
            dsimp only at h
            apply ih _ _ _ ?_ h
            intro entry he
            rcases hscan.2 entry he with h1 | ⟨e, hmem, hc, heq⟩
            · exact hrest entry h1
            · refine ⟨?_, ?_⟩
              · rw [heq]
                intro x hx
                rcases List.mem_append.1 hx with hx | hx
                · exact hhead.1 x hx
                · rw [List.mem_singleton] at hx
                  subst hx
                  exact ⟨inGraph_of_getD G current x hmem, hc⟩
              · rw [heq, List.length_append, List.length_singleton]
                exact Nat.succ_le_of_lt (lt_of_not_le hlen)

theorem dijkstraLoop_invariant {α : Type} [LinearOrderedField α] (G : Graph α)
    (endN maxHops : ℕ) (exclude : List ℕ) :
    ∀ (fuel : ℕ) (pq : List (α × ℕ × List (EdgeInfo α))) (visited : List ℕ)
      (dist : List (ℕ × α)) (p : List (EdgeInfo α)),
      (∀ entry ∈ pq, PathOk G exclude entry.2.2) →
      dijkstraLoop G endN maxHops exclude fuel pq visited dist = some (some p) →
      PathOk G exclude p := by
  intro fuel
  induction fuel with
  | zero => intro pq visited dist p _ h; cases h
  | succ f ih =>
    intro pq visited dist p hq h
    rw [dijkstraLoop] at h
    cases hpb : popBest dijkstraBetter pq with
    | none => rw [hpb] at h; exact absurd h (by simp)
    | some er =>
      obtain ⟨⟨cost, current, path⟩, rest⟩ := er
      rw [hpb] at h
      dsimp only at h
      have hmem := popBest_mem dijkstraBetter pq _ _ hpb
      have hrest : ∀ entry ∈ rest, PathOk G exclude entry.2.2 :=
        fun entry he => hq entry (hmem.2 entry he)
      have hpath : PathOk G exclude path := hq _ hmem.1
      by_cases hv : current ∈ visited
      · rw [if_pos hv] at h
        exact ih _ _ _ _ hrest h
      · rw [if_neg hv] at h
        by_cases hlen : maxHops ≤ path.length
        · rw [if_pos hlen] at h
          exact ih _ _ _ _ hrest h
        · rw [if_neg hlen] at h
          by_cases hend : current = endN
          · rw [if_pos hend] at h
            have hp : path = p := by
              injection h with h2
              injection h2
            exact hp ▸ hpath
          · rw [if_neg hend] at h
            apply ih _ _ _ _ ?_ h
            intro entry he
            rcases dijkstraRelax_mem exclude (visited ++ [current]) cost path
                ((assocGet G current).getD []) dist rest entry he with
              h1 | ⟨e, hmem', hc, heq⟩
            · exact hrest entry h1
            · rw [heq]
              intro x hx
              rcases List.mem_append.1 hx with hx | hx
              · exact hpath x hx
              · rw [List.mem_singleton] at hx
                subst hx
                exact ⟨inGraph_of_getD G current x hmem', hc⟩

theorem astarLoop_invariant {α : Type} [LinearOrderedField α] (G : Graph α)
    (endN maxHops : ℕ) (exclude : List ℕ) :
    ∀ (fuel : ℕ) (pq : List (α × α × ℕ × List (EdgeInfo α))) (closed : List ℕ)
      (gs : List (ℕ × α)) (p : List (EdgeInfo α)),
      (∀ entry ∈ pq, PathOk G exclude entry.2.2.2) →
      astarLoop G endN maxHops exclude fuel pq closed gs = some (some p) →
      PathOk G exclude p := by
  intro fuel
  induction fuel with
  | zero => intro pq closed gs p _ h; cases h
  | succ f ih =>
    intro pq closed gs p hq h
    rw [astarLoop] at h
    cases hpb : popBest astarBetter pq with
    | none => rw [hpb] at h; exact absurd h (by simp)
    | some er =>
      obtain ⟨⟨fs, gScore, current, path⟩, rest⟩ := er
      rw [hpb] at h
      dsimp only at h
      have hmem := popBest_mem astarBetter pq _ _ hpb
      have hrest : ∀ entry ∈ rest, PathOk G exclude entry.2.2.2 :=
        fun entry he => hq entry (hmem.2 entry he)
      have hpath : PathOk G exclude path := hq _ hmem.1
      by_cases hv : current ∈ closed
      · rw [if_pos hv] at h
        exact ih _ _ _ _ hrest h
      · rw [if_neg hv] at h
        by_cases hlen : maxHops ≤ path.length
        · rw [if_pos hlen] at h
          exact ih _ _ _ _ hrest h
        · rw [if_neg hlen] at h
          by_cases hend : current = endN
          · rw [if_pos hend] at h
            have hp : path = p := by
              injection h with h2
              injection h2
            exact hp ▸ hpath
          · rw [if_neg hend] at h
            apply ih _ _ _ _ ?_ h
            intro entry he
            rcases astarRelax_mem G endN exclude (closed ++ [current]) gScore
                path ((assocGet G current).getD []) gs rest entry he with
              h1 | ⟨e, hmem', hc, heq⟩
            · exact hrest entry h1
            · rw [heq]
              intro x hx
              rcases List.mem_append.1 hx with hx | hx
              · exact hpath x hx
              · rw [List.mem_singleton] at hx
                subst hx
                exact ⟨inGraph_of_getD G current x hmem', hc⟩

theorem bfsPath_spec {α : Type} (G : Graph α) (start endN maxHops : ℕ)
    (exclude : List ℕ) (fuel : ℕ) (p : List (EdgeInfo α))
    (h : bfsPath G start endN maxHops exclude fuel = some (some p)) :
    PathOk G exclude p ∧ p.length ≤ maxHops := by
  rw [bfsPath] at h
  by_cases hg : (assocGet G start).isNone ∨ (assocGet G endN).isNone
  · rw [if_pos hg] at h; exact absurd h (by simp)
  · rw [if_neg hg] at h
    apply bfsLoop_invariant G endN maxHops exclude fuel _ _ p ?_ h
    intro entry he
    rw [List.mem_singleton] at he
    subst he
    exact ⟨fun e he => absurd he (List.not_mem_nil e), Nat.zero_le _⟩

theorem dijkstraPath_spec {α : Type} [LinearOrderedField α] (G : Graph α)
    (start endN maxHops : ℕ) (exclude : List ℕ) (fuel : ℕ)
    (p : List (EdgeInfo α))
    (h : dijkstraPath G start endN maxHops exclude fuel = some (some p)) :
    PathOk G exclude p ∧ p.length < maxHops := by
  rw [dijkstraPath] at h
  by_cases hg : (assocGet G start).isNone
  · rw [if_pos hg] at h; exact absurd h (by simp)
  · rw [if_neg hg] at h
    refine ⟨dijkstraLoop_invariant G endN maxHops exclude fuel _ _ _ p ?_ h,
      dijkstraLoop_length G endN maxHops exclude fuel _ _ _ p h⟩
    intro entry he
    rw [List.mem_singleton] at he
    subst he
    exact fun e he => absurd he (List.not_mem_nil e)

theorem astarPath_spec {α : Type} [LinearOrderedField α] (G : Graph α)
    (start endN maxHops : ℕ) (exclude : List ℕ) (fuel : ℕ)
    (p : List (EdgeInfo α))
    (h : astarPath G start endN maxHops exclude fuel = some (some p)) :
    PathOk G exclude p ∧ p.length < maxHops := by
  rw [astarPath] at h
  by_cases hg : (assocGet G start).isNone ∨ (assocGet G endN).isNone
  · rw [if_pos hg] at h; exact absurd h (by simp)
  · rw [if_neg hg] at h
    refine ⟨astarLoop_invariant G endN maxHops exclude fuel _ _ _ p ?_ h,
      astarLoop_length G endN maxHops exclude fuel _ _ _ p h⟩
    intro entry he
    rw [List.mem_singleton] at he
    subst he
    exact fun e he => absurd he (List.not_mem_nil e)

theorem assocGet_assocSet {β : Type _} :
    ∀ (l : List (ℕ × β)) (k k' : ℕ) (v : β),
      assocGet (assocSet l k v) k' = if k = k' then some v else assocGet l k' := by
  intro l
  induction l with
  | nil => intro k k' v; rfl
  | cons kv rest ih =>
    obtain ⟨k₀, v₀⟩ := kv
    intro k k' v
    rw [assocSet]
    by_cases h0 : k₀ = k
    · rw [if_pos h0, assocGet]
      by_cases h1 : k = k'
      · rw [if_pos h1, if_pos h1]
      · rw [if_neg h1, if_neg h1, assocGet, if_neg (by rw [h0]; exact h1)]
    · rw [if_neg h0, assocGet]
      by_cases h1 : k₀ = k'
      · rw [if_pos h1, if_neg (fun hc => h0 (h1.trans hc.symm)), assocGet,
          if_pos h1]
      · rw [if_neg h1, ih, assocGet, if_neg h1]

theorem assocGet_append_single {β : Type _} :
    ∀ (l : List (ℕ × β)) (k k' : ℕ) (v : β),
      assocGet (l ++ [(k, v)]) k' =
        match assocGet l k' with
        | some w => some w
        | none => if k = k' then some v else none := by
  intro l
  induction l with
  | nil => intro k k' v; rfl
  | cons kv rest ih =>
    obtain ⟨k₀, v₀⟩ := kv
    intro k k' v
    rw [List.cons_append, assocGet]
    by_cases h0 : k₀ = k'
    · rw [if_pos h0, assocGet, if_pos h0]
    · rw [if_neg h0, ih, assocGet, if_neg h0]

theorem graphAppend_strength {α : Type} (t : ℚ) (G : Graph α) (k : ℕ)
    (e₀ : EdgeInfo α)
    (hG : ∀ k' l, assocGet G k' = some l → ∀ e ∈ l, t ≤ e.strength)
    (he : t ≤ e₀.strength) :
    ∀ k' l, assocGet (graphAppend G k e₀) k' = some l →
      ∀ e ∈ l, t ≤ e.strength := by
  intro k' l hget e he'
  rw [graphAppend] at hget
  cases hg : assocGet G k with
  | some l₀ =>
    rw [hg] at hget
    dsimp only at hget
    rw [assocGet_assocSet] at hget
    by_cases hk : k = k'
    · rw [if_pos hk] at hget
      injection hget with h2
      subst h2
      rcases List.mem_append.1 he' with h1 | h1
      · exact hG k l₀ hg e h1
      · rw [List.mem_singleton] at h1
        subst h1
        exact he
    · rw [if_neg hk] at hget
      exact hG k' l hget e he'
  | none =>
    rw [hg] at hget
    dsimp only at hget
    rw [assocGet_append_single] at hget
    cases hgl : assocGet G k' with
    | some w =>
      rw [hgl] at hget
      dsimp only at hget
      injection hget with h2
      subst h2
      exact hG k' _ hgl e he'
    | none =>
      rw [hgl] at hget
      dsimp only at hget
      by_cases hk : k = k'
      · rw [if_pos hk] at hget
        injection hget with h2
        subst h2
        rw [List.mem_singleton] at he'
        subst he'
        exact he
      · rw [if_neg hk] at hget
        cases hget

theorem addRelEdges_strength (t : ℚ) (G : Graph ℝ) (r : Relationship)
    (hG : ∀ k' l, assocGet G k' = some l → ∀ e ∈ l, t ≤ e.strength)
    (hr : t ≤ r.strength) :
    ∀ k' l, assocGet (addRelEdges G r) k' = some l →
      ∀ e ∈ l, t ≤ e.strength := by
  rw [addRelEdges]
  exact graphAppend_strength t _ _ _
    (graphAppend_strength t G _ _ hG hr) hr

theorem foldl_addRelEdges_strength (t : ℚ) :
    ∀ (rs : List Relationship) (G : Graph ℝ),
      (∀ k' l, assocGet G k' = some l → ∀ e ∈ l, t ≤ e.strength) →
      (∀ r ∈ rs, t ≤ r.strength) →
      ∀ k' l, assocGet (rs.foldl addRelEdges G) k' = some l →
        ∀ e ∈ l, t ≤ e.strength := by
  intro rs
  induction rs with
  | nil => intro G hG _; exact hG
  | cons r rs ih =>
    intro G hG hrs
    rw [List.foldl_cons]
    exact ih _ (addRelEdges_strength t G r hG (hrs r (List.mem_cons_self _ _)))
      (fun r' hr' => hrs r' (List.mem_cons_of_mem _ hr'))

theorem buildEnhancedGraph_strength (rels : List Relationship) (minS : ℚ)
    (rtypes : List ℕ) (e : EdgeInfo ℝ)
    (h : InGraph (buildEnhancedGraph rels minS rtypes) e) :
    max (minS * 100) 30 ≤ e.strength := by
  obtain ⟨k, l, hget, hmem⟩ := h
  rw [buildEnhancedGraph] at hget
  have hbase : ∀ k' l', assocGet ([] : Graph ℝ) k' = some l' →
      ∀ e' ∈ l', max (minS * 100) 30 ≤ e'.strength := by
    intro k' l' hc
    cases hc
  by_cases hty : rtypes.isEmpty
  · rw [if_pos hty] at hget
    refine foldl_addRelEdges_strength _ _ [] hbase ?_ k l hget e hmem
    intro r hr
    have := (List.mem_filter.1 hr).2
    simpa using this
  · rw [if_neg hty] at hget
    refine foldl_addRelEdges_strength _ _ [] hbase ?_ k l hget e hmem
    intro r hr
    have := (List.mem_filter.1 (List.mem_filter.1 hr).1).2
    simpa using this

theorem responseHops_length {α : Type} :
    ∀ (p : List (EdgeInfo α)) (f : ℕ), (responseHops f p).length = p.length := by
  intro p
  induction p with
  | nil => intro f; rfl
  | cons e es ih =>
    intro f
    rw [responseHops, List.length_cons, List.length_cons, ih]

theorem responseHops_mem {α : Type} :
    ∀ (p : List (EdgeInfo α)) (f : ℕ) (hop : GraphHop),
      hop ∈ responseHops f p →
      ∃ e ∈ p, hop.to_entity = e.dst ∧ hop.strength = e.strength := by
  intro p
  induction p with
  | nil => intro f hop h; cases h
  | cons e es ih =>
    intro f hop h
    rw [responseHops] at h
    rcases List.mem_cons.1 h with rfl | h1
    · exact ⟨e, List.mem_cons_self _ _, rfl, rfl⟩
    · obtain ⟨e', he', h2, h3⟩ := ih e.dst hop h1
      exact ⟨e', List.mem_cons_of_mem _ he', h2, h3⟩

/-- Claim C2, amended: every path returned by `find_path` (any
algorithm) has hop count at most `maxHops` (also reported as `distance`),
no hop destination — i.e. no intermediate node and not the target — is in
the exclusion set, and every traversed edge's strength is at least
`max(minStrength·100, 30)`. The source endpoint, however, is never
checked against the exclusion set (see the counterexample), so the
claim's "no excluded entity appears ... as an endpoint (including the
source)" fails for the source. -/
theorem C2_path_validity (rels : List Relationship) (fromE toE maxHops : ℕ)
    (minS : ℚ) (rtypes exclude : List ℕ) (alg : Algorithm) (fuel : ℕ)
    (resp : GraphPathResponse)
    (h : findPath rels fromE toE maxHops minS rtypes exclude alg fuel =
      some (some resp)) :
    resp.hops.length ≤ maxHops ∧ resp.distance ≤ maxHops ∧
    (∀ hop ∈ resp.hops, hop.to_entity ∉ exclude) ∧
    (∀ hop ∈ resp.hops, max (minS * 100) 30 ≤ hop.strength) := by
  rw [findPath] at h
  by_cases hft : fromE = toE
  · rw [if_pos hft] at h
    exact absurd h (by simp)
  · rw [if_neg hft] at h
    dsimp only at h
    obtain ⟨p, hp, hOk, hlen⟩ : ∃ p, resp = pathToResponseEnhanced p fromE toE ∧
        PathOk (buildEnhancedGraph rels minS rtypes) exclude p ∧
        p.length ≤ maxHops := by
      cases alg with
      | astar =>
        cases hres : astarPath (buildEnhancedGraph rels minS rtypes) fromE toE
            maxHops exclude fuel with
        | none => rw [hres] at h; exact absurd h (by simp)
        | some o =>
          cases o with
          | none => rw [hres] at h; exact absurd h (by simp)
          | some p =>
            rw [hres] at h
            dsimp only at h
            have hspec := astarPath_spec _ _ _ _ _ _ _ hres
            refine ⟨p, ?_, hspec.1, hspec.2.le⟩
            injection h with h2
            injection h2 with h3
            exact h3.symm
      | dijkstra =>
        cases hres : dijkstraPath (buildEnhancedGraph rels minS rtypes) fromE toE
            maxHops exclude fuel with
        | none => rw [hres] at h; exact absurd h (by simp)
        | some o =>
          cases o with
          | none => rw [hres] at h; exact absurd h (by simp)
          | some p =>
            rw [hres] at h
            dsimp only at h
            have hspec := dijkstraPath_spec _ _ _ _ _ _ _ hres
            refine ⟨p, ?_, hspec.1, hspec.2.le⟩
            injection h with h2
            injection h2 with h3
            exact h3.symm
      | bfs =>
        cases hres : bfsPath (buildEnhancedGraph rels minS rtypes) fromE toE
            maxHops exclude fuel with
        | none => rw [hres] at h; exact absurd h (by simp)
        | some o =>
          cases o with
          | none => rw [hres] at h; exact absurd h (by simp)
          | some p =>
            rw [hres] at h
            dsimp only at h
            have hspec := bfsPath_spec _ _ _ _ _ _ _ hres
            refine ⟨p, ?_, hspec.1, hspec.2⟩
            injection h with h2
            injection h2 with h3
            exact h3.symm
    subst hp
    refine ⟨?_, ?_, ?_, ?_⟩
    · show (responseHops fromE p).length ≤ maxHops
      rw [responseHops_length]
      exact hlen
    · show (responseHops fromE p).length ≤ maxHops
      rw [responseHops_length]
      exact hlen
    · intro hop hh
      obtain ⟨e, he, hto, _⟩ := responseHops_mem p fromE hop hh
      rw [hto]
      exact (hOk e he).2
    · intro hop hh
      obtain ⟨e, he, _, hstr⟩ := responseHops_mem p fromE hop hh
      rw [hstr]
      exact buildEnhancedGraph_strength rels minS rtypes e (hOk e he).1

/-- Claim C2 counterexample: with the source entity 1 itself in the
exclusion set, `find_path` still returns the 1 → 2 path — the excluded
source appears as an endpoint of the returned path, contradicting the
claim's "no excluded entity appears ... including the source". -/
theorem C2_counterexample :
    findPath [rel12] 1 2 6 (1/2) [] [1] Algorithm.bfs 10 = some (some resp12) ∧
    resp12.from_entity = 1 ∧ (1 : ℕ) ∈ ([1] : List ℕ) := by
  refine ⟨?_, rfl, List.mem_singleton.2 rfl⟩
  have h : ((1 : ℚ)/2 * 100) ⊔ 30 = 50 := by
    rw [max_def]
    norm_num
  simp only [findPath, buildEnhancedGraph, h]
  rfl

/-- Witness for C2's amended theorem: the 1 → 2 query with an empty
exclusion set returns `resp12`; the theorem gives its hop-count bound. -/
theorem C2_path_validity_witness : resp12.hops.length ≤ 6 := by
  have hfp : findPath [rel12] 1 2 6 (1/2) [] [] Algorithm.bfs 10 =
      some (some resp12) := by
    have h : ((1 : ℚ)/2 * 100) ⊔ 30 = 50 := by
      rw [max_def]
      norm_num
    simp only [findPath, buildEnhancedGraph, h]
    rfl
  exact (C2_path_validity [rel12] 1 2 6 (1/2) [] [] Algorithm.bfs 10 resp12 hfp).1

/-- Claim C10: Dijkstra and A* check the hop limit when a node is popped,
before the target test, so every path they return is strictly shorter
than `maxHops`; BFS tests the target at neighbor generation, so it can
return a path of exactly `maxHops` hops. On the line graph 1 — 2 — 3 with
`maxHops = 2`, BFS returns the 2-hop path while Dijkstra and A* return
NotFound. -/
theorem C10_hop_limit_boundary :
    (∀ (α : Type) [LinearOrderedField α] (G : Graph α) (s t mh : ℕ)
      (ex : List ℕ) (fuel : ℕ) (p : List (EdgeInfo α)),
      dijkstraPath G s t mh ex fuel = some (some p) → p.length < mh) ∧
    (∀ (α : Type) [LinearOrderedField α] (G : Graph α) (s t mh : ℕ)
      (ex : List ℕ) (fuel : ℕ) (p : List (EdgeInfo α)),
      astarPath G s t mh ex fuel = some (some p) → p.length < mh) ∧
    bfsPath lineGraph 1 3 2 [] 20 = some (some [lineEdge 2 0, lineEdge 3 1]) ∧
    ([lineEdge 2 0, lineEdge 3 1] : List (EdgeInfo ℚ)).length = 2 ∧
    dijkstraPath lineGraph 1 3 2 [] 50 = some none ∧
    astarPath lineGraph 1 3 2 [] 50 = some none := by
  refine ⟨?_, ?_, ?_, rfl, ?_, ?_⟩
  · intro α _ G s t mh ex fuel p h
    exact (dijkstraPath_spec G s t mh ex fuel p h).2
  · intro α _ G s t mh ex fuel p h
    exact (astarPath_spec G s t mh ex fuel p h).2
  · rfl
  · rfl
  · rfl

/-- Witness for C10's universal conjunct: on the line graph with
`maxHops = 3`, Dijkstra returns the 2-hop path and the theorem bounds its
length strictly below 3. -/
theorem C10_hop_limit_boundary_witness :
    ([lineEdge 2 0, lineEdge 3 1] : List (EdgeInfo ℚ)).length < 3 :=
  C10_hop_limit_boundary.1 ℚ lineGraph 1 3 3 [] 50
    [lineEdge 2 0, lineEdge 3 1] rfl

end

end Rhiz
